import Mathlib

set_option maxRecDepth 100000

/-!
# BadRpn: a shallow embedding of `main.c`

The program is a terminal RPN calculator over fixed-point numbers with three
fractional digits.  Two parts of `main.c` are embedded here:

* `get_input`, the keystroke decoder, as a function from the list of keys
  that `getchar` is going to deliver to the decoded `input_event`, the
  characters written to the terminal, and the keys that were not consumed;
* the body of the `while(1)` loop of `rpn_proc` (`rpn_cycle`) together with
  `rpn_reset`, `rpn_push`, `rpn_pop`, `rpn_peek`, acting on an explicit record
  of the global variables.

Conventions of the embedding.

* A key (`char c`) is its character code, a `Nat`.
* `num_t` is `long`; the model fixes the LP64 data model of the Unix targets
  the program is written for: `long` has 64 bits and `int` has 32.  Arithmetic
  on `num_t` is wrapped with `wrap_long`, a store into an `int` stack cell is
  wrapped with `wrap_int`.
* The counters `input_length` and `decimal_place_length` count keystrokes of
  one event and are mathematical integers.
* C division truncates toward zero: `Int.tdiv`.  Division by zero has no
  defined result in C; a cycle that reaches it ends in `cycle_result.div_by_zero`.
* Terminal output is recorded as a list of `out_event`.
-/

namespace BadRpn

/-! ## Constants and machine integers -/

/-- The source has `#define FIXED_POINT_PERCISION 3`. -/
def FIXED_POINT_PERCISION : Int := 3

/-- The source has `#define STACK_SIZE 256`. -/
def STACK_SIZE : Int := 256

/-- Value of a mathematical integer as a 64-bit two's complement `long`. -/
def wrap_long (x : Int) : Int := (x + 2 ^ 63) % 2 ^ 64 - 2 ^ 63

/-- Value of a mathematical integer as a 32-bit two's complement `int`. -/
def wrap_int (x : Int) : Int := (x + 2 ^ 31) % 2 ^ 32 - 2 ^ 31

/-- Representable as `num_t` (`long`). -/
def fits_long (x : Int) : Prop := -2 ^ 63 ≤ x ∧ x < 2 ^ 63

/-- Representable in a stack cell (`int`). -/
def fits_int (x : Int) : Prop := -2 ^ 31 ≤ x ∧ x < 2 ^ 31

instance (x : Int) : Decidable (fits_long x) := by unfold fits_long; infer_instance

instance (x : Int) : Decidable (fits_int x) := by unfold fits_int; infer_instance

/-- The global `calc_divider`: `main` starts from 1 and multiplies it by 10
`FIXED_POINT_PERCISION` times before it calls `rpn_proc`. -/
def calc_divider : Int :=
  (List.range FIXED_POINT_PERCISION.toNat).foldl (fun d _ => wrap_long (d * 10)) 1

/-! ## `calc_oper`: the operator tag with the push flag in bit 31 -/

namespace calc_oper

def none : Nat := 0
def plus : Nat := 1
def minus : Nat := 2
def multiply : Nat := 3
def divide : Nat := 4
def quit : Nat := 5
def ac : Nat := 6
def push : Nat := 0x80000000

/-- The C expression `~push` on the 32-bit enumeration type. -/
def not_push : Nat := 0x7FFFFFFF

end calc_oper

/-- The C struct `input_event`. -/
structure input_event where
  input_number : Int
  oper : Nat
deriving DecidableEq, Repr

/-! ## Terminal output -/

/-- What the program writes to standard output. -/
inductive out_event where
  /-- The call `putchar(c)`. -/
  | putchar (c : Nat)
  /-- The call `printf("\b \b")`. -/
  | erase
  /-- The call `puts("\nERROR: STACK OVERFLOW!")`. -/
  | stack_overflow
  /-- The call `puts("\nERROR: STACK UNDERFLOW!")`. -/
  | stack_underflow
  /-- The call `printf("[%d] > ", rpn_stk_index)`. -/
  | prompt (index : Int)
  /-- The call `printf(" >>> %.3f\n", rpn_peek() / disp_divider)`, recorded with
  the fixed-point value `rpn_peek()` that is displayed. -/
  | display (value : Int)
deriving DecidableEq, Repr

/-! ## `get_input` -/

/-- The local variables of `get_input`, and the characters echoed so far. -/
structure get_input_locals where
  ret : input_event
  reading_decimal : Bool
  decimal_place_length : Int
  input_length : Int
  out : List out_event
deriving DecidableEq, Repr

/-- The locals at the top of `get_input`. -/
def get_input_init : get_input_locals :=
  { ret := { input_number := 0, oper := calc_oper.none },
    reading_decimal := false,
    decimal_place_length := 0,
    input_length := 0,
    out := [] }

/-- How one pass through the body of the `while(1)` of `get_input` ends. -/
inductive key_result where
  /-- The pass ends in `continue` or `break`: the loop reads the next key. -/
  | next_key (l : get_input_locals)
  /-- The pass ends in `goto commit_input`. -/
  | commit (l : get_input_locals)
deriving DecidableEq, Repr

/-- One pass through the body of the `while(1)` of `get_input` on the key `c`. -/
def get_input_key (l : get_input_locals) (c : Nat) : key_result :=
  if 48 ≤ c ∧ c ≤ 57 then
    -- '0' .. '9'
    if !l.reading_decimal ||
        (l.reading_decimal && decide (l.decimal_place_length < FIXED_POINT_PERCISION)) then
      .next_key
        { ret := { input_number := wrap_long (wrap_long (l.ret.input_number * 10) + ((c : Int) - 48)),
                   oper := l.ret.oper ||| calc_oper.push },
          reading_decimal := l.reading_decimal,
          decimal_place_length :=
            if l.reading_decimal then l.decimal_place_length + 1 else l.decimal_place_length,
          input_length := l.input_length + 1,
          out := l.out ++ [.putchar c] }
    else .next_key l
  else if c = 46 then
    -- '.'
    .next_key
      { l with
        reading_decimal := true,
        input_length := if !l.reading_decimal then l.input_length + 1 else l.input_length,
        out := if !l.reading_decimal then l.out ++ [.putchar c] else l.out }
  else if c = 32 ∨ c = 10 then
    -- ' ' and '\n'
    .commit { l with ret := { l.ret with oper := l.ret.oper ||| calc_oper.push } }
  else if c = 95 then
    -- '_'
    .next_key
      { l with
        ret := { l.ret with input_number := wrap_long (l.ret.input_number * -1) },
        input_length := l.input_length + 1,
        out := l.out ++ [.putchar c] }
  else if c = 43 then
    -- '+'
    .commit { l with ret := { l.ret with oper := l.ret.oper ||| calc_oper.plus } }
  else if c = 45 then
    -- '-'
    .commit { l with ret := { l.ret with oper := l.ret.oper ||| calc_oper.minus } }
  else if c = 42 then
    -- '*'
    .commit { l with ret := { l.ret with oper := l.ret.oper ||| calc_oper.multiply } }
  else if c = 47 then
    -- '/'
    .commit { l with ret := { l.ret with oper := l.ret.oper ||| calc_oper.divide } }
  else if c = 59 then
    -- ';'
    .commit { l with ret := { l.ret with oper := calc_oper.ac } }
  else if c = 0x1B then
    -- ASCII ESC
    .commit { l with ret := { l.ret with oper := l.ret.oper ||| calc_oper.quit } }
  else if c = 0x7F then
    -- ASCII DEL
    .next_key
      { ret := { l.ret with input_number := Int.tdiv l.ret.input_number 10 },
        reading_decimal :=
          if l.reading_decimal then
            (if l.decimal_place_length > 0 then l.reading_decimal else false)
          else l.reading_decimal,
        decimal_place_length :=
          if l.reading_decimal then
            (if l.decimal_place_length > 0 then l.decimal_place_length - 1
             else l.decimal_place_length)
          else l.decimal_place_length,
        input_length := l.input_length - 1,
        out := if l.input_length > 0 then l.out ++ [.erase] else l.out }
  else .next_key l

/-- The `while(1)` of `get_input` over the keys that `getchar` delivers.  The
result is the locals at `commit_input`, the key `c` that ended the loop and
the keys not yet read; `none` when the keys run out before a key commits
(the program then waits in `getchar`). -/
def get_input_loop (l : get_input_locals) :
    List Nat → Option (get_input_locals × Nat × List Nat)
  | [] => Option.none
  | c :: ks =>
    match get_input_key l c with
    | .next_key l1 => get_input_loop l1 ks
    | .commit l1 => some (l1, c, ks)

/-- The loop `for(i = 0; i < FIXED_POINT_PERCISION - decimal_place_length; i++)
ret.input_number *= 10;` run `n` times. -/
def add_trailing_zeros : Nat → Int → Int
  | 0, x => x
  | n + 1, x => add_trailing_zeros n (wrap_long (x * 10))

/-- The code of `get_input` from the label `commit_input` on, with `c` the key
that ended the loop: the returned event and the output so far. -/
def commit_input (l : get_input_locals) (c : Nat) : input_event × List out_event :=
  let no_operation := decide (l.input_length = 0) && decide (l.ret.oper &&& calc_oper.not_push = 0)
  let oper := if no_operation then calc_oper.none else l.ret.oper
  let out := if no_operation then l.out else if c ≠ 10 then l.out ++ [.putchar c] else l.out
  ({ input_number :=
       add_trailing_zeros (FIXED_POINT_PERCISION - l.decimal_place_length).toNat l.ret.input_number,
     oper := oper },
   out)

/-- What one call of `get_input` yields. -/
structure get_input_result where
  /-- The returned `input_event`. -/
  event : input_event
  /-- The characters written while decoding. -/
  out : List out_event
  /-- The keys left for the next call. -/
  rest : List Nat
deriving DecidableEq, Repr

/-- The function `get_input` on the keys that `getchar` will deliver. -/
def get_input (keys : List Nat) : Option get_input_result :=
  match get_input_loop get_input_init keys with
  | Option.none => Option.none
  | some (l, c, rest) =>
    some { event := (commit_input l c).1, out := (commit_input l c).2, rest := rest }

/-! ## The evaluator -/

/-- The global variables `rpn_stack`, `rpn_stk_index`, `reset_status` and
`ans`, and the output written so far.  The array `rpn_stack` is a function
from cell numbers to cell values. -/
structure rpn_state where
  rpn_stack : Int → Int
  rpn_stk_index : Int
  reset_status : Bool
  ans : Int
  out : List out_event

/-- The globals as their initialisers leave them. -/
def rpn_initial : rpn_state :=
  { rpn_stack := fun _ => 0,
    rpn_stk_index := 0,
    reset_status := false,
    ans := 0,
    out := [] }

/-- The cells below the stack index, bottom first: the stack as a list. -/
def stack_contents (st : rpn_state) : List Int :=
  (List.range st.rpn_stk_index.toNat).map (fun (i : Nat) => st.rpn_stack (i : Int))

/-- The function `rpn_reset`. -/
def rpn_reset (st : rpn_state) (initial : Int) : rpn_state :=
  { st with
    rpn_stk_index := if initial = 0 then 0 else 1,
    rpn_stack := fun i => if i = 0 then wrap_int initial else st.rpn_stack i }

/-- The function `rpn_push`. -/
def rpn_push (st : rpn_state) (num : Int) : rpn_state :=
  if st.rpn_stk_index = STACK_SIZE then
    { st with out := st.out ++ [.stack_overflow], reset_status := true }
  else
    { st with
      rpn_stack := fun i => if i = st.rpn_stk_index then wrap_int num else st.rpn_stack i,
      rpn_stk_index := st.rpn_stk_index + 1 }

/-- The function `rpn_pop`: the returned value and the globals after the call. -/
def rpn_pop (st : rpn_state) : Int × rpn_state :=
  if st.rpn_stk_index = 0 then
    (1, { st with out := st.out ++ [.stack_underflow], reset_status := true })
  else
    (st.rpn_stack (st.rpn_stk_index - 1), { st with rpn_stk_index := st.rpn_stk_index - 1 })

/-- The function `rpn_peek`. -/
def rpn_peek (st : rpn_state) : Int :=
  if st.rpn_stk_index = 0 then 0 else st.rpn_stack (st.rpn_stk_index - 1)

/-- How one pass through the body of the `while(1)` of `rpn_proc` ends. -/
inductive cycle_result where
  /-- The statement `return 0;` was reached. -/
  | returned (code : Int) (st : rpn_state)
  /-- The pass reached the end of the body or `continue`. -/
  | continued (st : rpn_state)
  /-- The divisor popped for `/` was zero: the C division has no defined result. -/
  | div_by_zero (st : rpn_state)

/-- The `switch(input.oper)` of `rpn_proc`; `oper` is `input.oper` after
`input.oper &= ~push`.  The result is `none` when the division is by zero. -/
def rpn_apply (st : rpn_state) (oper : Nat) : Option rpn_state :=
  if oper = calc_oper.plus then
    some (rpn_push (rpn_pop st).2 (wrap_long (st.ans + (rpn_pop st).1)))
  else if oper = calc_oper.minus then
    some (rpn_push (rpn_pop st).2 (wrap_long (st.ans - (rpn_pop st).1)))
  else if oper = calc_oper.multiply then
    some (rpn_push (rpn_pop st).2
      (wrap_long (Int.tdiv (wrap_long (st.ans * (rpn_pop st).1)) calc_divider)))
  else if oper = calc_oper.divide then
    if (rpn_pop st).1 = 0 then Option.none
    else
      some (rpn_push (rpn_pop st).2
        (wrap_long (Int.tdiv (wrap_long (st.ans * calc_divider)) (rpn_pop st).1)))
  else some st

/-- The end of the body of the `while(1)` of `rpn_proc`: the statement
`if(reset_status) rpn_reset(ans), reset_status = false;` and the `printf` of
the stack top. -/
def rpn_cycle_end (st : rpn_state) : rpn_state :=
  let st4 :=
    if st.reset_status then { rpn_reset st st.ans with reset_status := false } else st
  { st4 with out := st4.out ++ [.display (rpn_peek st4)] }

/-- The body of the `while(1)` of `rpn_proc` from the test `input.oper == quit`
on, for the event `input` that `get_input` returned. -/
def rpn_cycle (st : rpn_state) (input : input_event) : cycle_result :=
  if input.oper = calc_oper.quit then .returned 0 st
  else if input.oper = calc_oper.ac then
    .continued { rpn_reset st 0 with out := (rpn_reset st 0).out ++ [.putchar 10] }
  else
    let st1 :=
      if input.oper &&& calc_oper.not_push ≠ 0 then
        { (rpn_pop st).2 with ans := (rpn_pop st).1 }
      else st
    let st2 :=
      if input.oper &&& calc_oper.push ≠ 0 then rpn_push st1 input.input_number else st1
    match rpn_apply st2 (input.oper &&& calc_oper.not_push) with
    | Option.none => .div_by_zero st2
    | some st3 => .continued (rpn_cycle_end st3)

/-- Successive passes through the body of the `while(1)` of `rpn_proc`, one for
each of the given events, up to the first pass that does not continue. -/
def rpn_cycles (st : rpn_state) : List input_event → cycle_result
  | [] => .continued st
  | input :: inputs =>
    match rpn_cycle st input with
    | .continued st1 => rpn_cycles st1 inputs
    | .returned code st1 => .returned code st1
    | .div_by_zero st1 => .div_by_zero st1

/-- How a run of `rpn_proc` on a finite list of keys ends. -/
inductive proc_result where
  /-- The function returned `code`. -/
  | returned (code : Int) (st : rpn_state)
  /-- The keys ran out: the program waits in `getchar`. -/
  | waiting (st : rpn_state)
  /-- A division by zero was reached. -/
  | div_by_zero (st : rpn_state)
  /-- The bound on the number of passes was reached. -/
  | out_of_fuel (st : rpn_state)

/-- The `while(1)` of `rpn_proc`, at most `fuel` passes. -/
def rpn_proc_loop : Nat → rpn_state → List Nat → proc_result
  | 0, st, _ => .out_of_fuel st
  | fuel + 1, st, keys =>
    match get_input keys with
    | Option.none => .waiting { st with out := st.out ++ [.prompt st.rpn_stk_index] }
    | some r =>
      match rpn_cycle { st with out := st.out ++ [.prompt st.rpn_stk_index] ++ r.out } r.event with
      | .returned code st1 => .returned code st1
      | .continued st1 => rpn_proc_loop fuel st1 r.rest
      | .div_by_zero st1 => .div_by_zero st1

/-- The function `rpn_proc` on the keys that `getchar` will deliver.  Every pass
consumes at least one key, so `keys.length + 1` passes are enough. -/
def rpn_proc (st : rpn_state) (keys : List Nat) : proc_result :=
  rpn_proc_loop (keys.length + 1) st keys

/-! ## Vocabulary of the statements -/

/-- The keys `'0'` .. `'9'`. -/
def is_digit (c : Nat) : Prop := 48 ≤ c ∧ c ≤ 57

instance (c : Nat) : Decidable (is_digit c) := by unfold is_digit; infer_instance

/-- The keys on which `get_input` leaves its loop: space, newline, the four
operators, `;` and ESC. -/
def is_terminator (c : Nat) : Prop :=
  c = 32 ∨ c = 10 ∨ c = 43 ∨ c = 45 ∨ c = 42 ∨ c = 47 ∨ c = 59 ∨ c = 27

instance (c : Nat) : Decidable (is_terminator c) := by unfold is_terminator; infer_instance

/-- The number that a string of digit keys denotes when read as a decimal
integer (0 for the empty string). -/
def digits_value (ks : List Nat) : Int :=
  ks.foldl (fun (a : Int) (c : Nat) => a * 10 + ((c : Int) - 48)) 0

/-- The keys of a literal: the digits `I` of the integer part and then, when
`frac = some F`, the key `.` followed by the digits `F`. -/
def literal_keys (I : List Nat) (frac : Option (List Nat)) : List Nat :=
  I ++ (match frac with
    | Option.none => []
    | some F => 46 :: F)

/-- The first `min |F| 3` digits of `F` read as an integer and padded with
zeros on the right to three digits. -/
def fraction_value (F : List Nat) : Int :=
  digits_value (F.take 3) * 10 ^ (3 - (F.take 3).length)

/-- The fixed-point number that a literal denotes: `int(I) * 1000` plus the
value of the first three fractional digits. -/
def literal_value (I : List Nat) (frac : Option (List Nat)) : Int :=
  digits_value I * 1000 +
    (match frac with
      | Option.none => 0
      | some F => fraction_value F)

/-- The four operator tags. -/
def is_operator (op : Nat) : Prop :=
  op = calc_oper.plus ∨ op = calc_oper.minus ∨ op = calc_oper.multiply ∨ op = calc_oper.divide

instance (op : Nat) : Decidable (is_operator op) := by unfold is_operator; infer_instance

/-- The result of the operator `op` on the operands `x` (left) and `y` (right)
in fixed-point arithmetic with scale 1000, division truncating toward zero. -/
def fixed_point_result (op : Nat) (x y : Int) : Int :=
  if op = calc_oper.plus then x + y
  else if op = calc_oper.minus then x - y
  else if op = calc_oper.multiply then Int.tdiv (x * y) 1000
  else Int.tdiv (x * 1000) y

/-- The locals that a pass of the loop of `get_input` leaves. -/
def key_result.locals : key_result → get_input_locals
  | .next_key l => l
  | .commit l => l

/-- The locals of `get_input` after the loop has read the keys `ks` one after
the other. -/
def feed (l : get_input_locals) (ks : List Nat) : get_input_locals :=
  ks.foldl (fun l c => (get_input_key l c).locals) l

/-- The bound on the stack index: `0 ≤ rpn_stk_index ≤ STACK_SIZE`. -/
def index_in_bounds (st : rpn_state) : Prop :=
  0 ≤ st.rpn_stk_index ∧ st.rpn_stk_index ≤ STACK_SIZE

instance (st : rpn_state) : Decidable (index_in_bounds st) := by
  unfold index_in_bounds; infer_instance

/-- The states in which the program can be at the top of the `while(1)` of
`rpn_proc`: the initial one, and every state in which a pass on some event
ends without leaving the loop.  Between two passes the program writes the
prompt and the echo of the keys, which changes the output only. -/
inductive reachable : rpn_state → Prop where
  | initial : reachable rpn_initial
  | output (st : rpn_state) (o : List out_event) :
      reachable st → reachable { st with out := st.out ++ o }
  | cycle (st : rpn_state) (input : input_event) (st1 : rpn_state) :
      reachable st → rpn_cycle st input = .continued st1 → reachable st1

/-- The keys that no branch of the loop of `get_input` handles: neither a
digit, nor `.`, `_`, DEL, nor a key that ends the event. -/
def is_ignored (c : Nat) : Prop :=
  ¬ is_digit c ∧ c ≠ 46 ∧ c ≠ 95 ∧ c ≠ 127 ∧ ¬ is_terminator c

instance (c : Nat) : Decidable (is_ignored c) := by unfold is_ignored; infer_instance

/-- The keys of `ks` that are not ignored, in their order. -/
def drop_ignored (ks : List Nat) : List Nat :=
  ks.filter (fun c => decide (¬ is_ignored c))

/-- A line of input: keys that do not end the event, followed by one key that
does. -/
def is_line (l : List Nat) : Prop :=
  match l.getLast? with
  | Option.none => False
  | some t => is_terminator t ∧ ∀ c ∈ l.dropLast, ¬ is_terminator c

instance (l : List Nat) : Decidable (is_line l) := by
  unfold is_line
  cases l.getLast? with
  | none => exact isFalse (fun h => h)
  | some t => simp only; infer_instance

/-- The events that successive calls of `get_input` return on the given keys,
at most `fuel` calls, up to the call that finds no complete event. -/
def get_inputs : Nat → List Nat → List input_event
  | 0, _ => []
  | fuel + 1, keys =>
    match get_input keys with
    | Option.none => []
    | some r => r.event :: get_inputs fuel r.rest

end BadRpn

namespace BadRpn

/-! ## Machine integers -/

theorem wrap_long_of_fits {x : Int} (h : fits_long x) : wrap_long x = x := by
  unfold fits_long at h
  unfold wrap_long
  omega

theorem wrap_int_of_fits {x : Int} (h : fits_int x) : wrap_int x = x := by
  unfold fits_int at h
  unfold wrap_int
  omega

theorem fits_long_wrap_long (x : Int) : fits_long (wrap_long x) := by
  unfold fits_long wrap_long
  omega

theorem fits_int_wrap_int (x : Int) : fits_int (wrap_int x) := by
  unfold fits_int wrap_int
  omega

theorem fits_long_of_fits_int {x : Int} (h : fits_int x) : fits_long x := by
  unfold fits_int at h
  unfold fits_long
  omega

theorem calc_divider_eq : calc_divider = 1000 := by decide

/-! ## Digit strings -/

theorem digits_value_foldl (ks : List Nat) (a : Int) :
    ks.foldl (fun (a : Int) (c : Nat) => a * 10 + ((c : Int) - 48)) a = a * 10 ^ ks.length + digits_value ks := by
  induction ks generalizing a with
  | nil => simp [digits_value]
  | cons c ks ih =>
    simp only [List.foldl_cons, List.length_cons, digits_value]
    rw [ih (a * 10 + ((c : Int) - 48)), ih (0 * 10 + ((c : Int) - 48))]
    ring

theorem digits_value_cons (c : Nat) (ks : List Nat) :
    digits_value (c :: ks) = ((c : Int) - 48) * 10 ^ ks.length + digits_value ks := by
  have h := digits_value_foldl ks (0 * 10 + ((c : Int) - 48))
  simp only [digits_value, List.foldl_cons] at h ⊢
  rw [h]
  ring

theorem digits_value_append (xs ys : List Nat) :
    digits_value (xs ++ ys) = digits_value xs * 10 ^ ys.length + digits_value ys := by
  unfold digits_value
  rw [List.foldl_append, digits_value_foldl]
  rfl

theorem digits_value_nonneg (ks : List Nat) (h : ∀ c ∈ ks, is_digit c) : 0 ≤ digits_value ks := by
  induction ks with
  | nil => simp [digits_value]
  | cons c ks ih =>
    rw [digits_value_cons]
    have hc : is_digit c := h c (List.mem_cons_self _ _)
    have h1 : 0 ≤ digits_value ks := ih (fun d hd => h d (List.mem_cons_of_mem _ hd))
    have h2 : (0 : Int) ≤ (c : Int) - 48 := by unfold is_digit at hc; omega
    positivity

/-! ## The loop of `get_input` -/

theorem feed_nil (l : get_input_locals) : feed l [] = l := rfl

theorem feed_cons (l : get_input_locals) (c : Nat) (ks : List Nat) :
    feed l (c :: ks) = feed (get_input_key l c).locals ks := rfl

theorem feed_append (l : get_input_locals) (xs ys : List Nat) :
    feed l (xs ++ ys) = feed (feed l xs) ys := by
  simp [feed, List.foldl_append]

theorem get_input_key_next (l : get_input_locals) (c : Nat) (h : ¬ is_terminator c) :
    get_input_key l c = .next_key (get_input_key l c).locals := by
  unfold is_terminator at h
  simp only [not_or] at h
  obtain ⟨h1, h2, h3, h4, h5, h6, h7, h8⟩ := h
  unfold get_input_key
  split_ifs <;> first | rfl | omega

theorem get_input_loop_append (ks rest : List Nat) (l : get_input_locals)
    (h : ∀ c ∈ ks, ¬ is_terminator c) :
    get_input_loop l (ks ++ rest) = get_input_loop (feed l ks) rest := by
  induction ks generalizing l with
  | nil => rfl
  | cons c ks ih =>
    have hc := get_input_key_next l c (h c (List.mem_cons_self _ _))
    rw [List.cons_append, get_input_loop, hc, feed_cons]
    exact ih _ (fun d hd => h d (List.mem_cons_of_mem _ hd))

theorem not_terminator_of_digit {c : Nat} (h : is_digit c) : ¬ is_terminator c := by
  unfold is_digit at h
  unfold is_terminator
  omega

theorem lor_push_cases {o : Nat} (h : o = calc_oper.none ∨ o = calc_oper.push) :
    o ||| calc_oper.push = calc_oper.push := by
  rcases h with h | h <;> subst h <;> decide

/-- A digit key that is accepted: the number gains the digit, the push flag is
set and the key is echoed. -/
theorem get_input_key_digit (l : get_input_locals) (c : Nat) (hc : is_digit c)
    (hacc : l.reading_decimal = true → l.decimal_place_length < 3) :
    get_input_key l c = .next_key
      { ret := { input_number := wrap_long (wrap_long (l.ret.input_number * 10) + ((c : Int) - 48)),
                 oper := l.ret.oper ||| calc_oper.push },
        reading_decimal := l.reading_decimal,
        decimal_place_length :=
          if l.reading_decimal then l.decimal_place_length + 1 else l.decimal_place_length,
        input_length := l.input_length + 1,
        out := l.out ++ [.putchar c] } := by
  unfold is_digit at hc
  unfold get_input_key
  rw [if_pos hc]
  cases hrd : l.reading_decimal with
  | false => simp
  | true => simp [FIXED_POINT_PERCISION, hacc hrd]

/-- A digit key after the third fractional digit changes nothing. -/
theorem get_input_key_digit_full (l : get_input_locals) (c : Nat) (hc : is_digit c)
    (hrd : l.reading_decimal = true) (hfull : 3 ≤ l.decimal_place_length) :
    get_input_key l c = .next_key l := by
  unfold is_digit at hc
  unfold get_input_key
  rw [if_pos hc]
  have : ¬ l.decimal_place_length < 3 := by omega
  simp [FIXED_POINT_PERCISION, hrd, this]

theorem feed_digits_full (ks : List Nat) (l : get_input_locals) (hks : ∀ c ∈ ks, is_digit c)
    (hrd : l.reading_decimal = true) (hfull : 3 ≤ l.decimal_place_length) :
    feed l ks = l := by
  induction ks with
  | nil => rfl
  | cons c ks ih =>
    rw [feed_cons, get_input_key_digit_full l c (hks c (List.mem_cons_self _ _)) hrd hfull]
    exact ih (fun d hd => hks d (List.mem_cons_of_mem _ hd))

/-- The locals after a string of digit keys all of which are accepted. -/
theorem feed_digits (ks : List Nat) (v : Int) (o : Nat) (rd : Bool) (dpl len : Int)
    (out : List out_event) (hks : ∀ c ∈ ks, is_digit c)
    (hacc : rd = true → dpl + ks.length ≤ 3)
    (ho : o = calc_oper.none ∨ o = calc_oper.push)
    (hv : 0 ≤ v) (hfit : v * 10 ^ ks.length + digits_value ks < 2 ^ 63) :
    feed ⟨⟨v, o⟩, rd, dpl, len, out⟩ ks =
      ⟨⟨v * 10 ^ ks.length + digits_value ks, if ks = [] then o else calc_oper.push⟩, rd,
        if rd then dpl + ks.length else dpl, len + ks.length,
        out ++ ks.map out_event.putchar⟩ := by
  induction ks generalizing v o dpl len out with
  | nil => simp [feed, digits_value]
  | cons c ks ih =>
    have hc : is_digit c := hks c (List.mem_cons_self _ _)
    have hks1 : ∀ d ∈ ks, is_digit d := fun d hd => hks d (List.mem_cons_of_mem _ hd)
    have hdv : 0 ≤ digits_value ks := digits_value_nonneg ks hks1
    have hpow : (1 : Int) ≤ 10 ^ ks.length := one_le_pow₀ (by norm_num)
    have hd0 : (0 : Int) ≤ (c : Int) - 48 := by unfold is_digit at hc; omega
    have hfit1 : (v * 10 + ((c : Int) - 48)) * 10 ^ ks.length + digits_value ks < 2 ^ 63 := by
      have e : (v * 10 + ((c : Int) - 48)) * 10 ^ ks.length + digits_value ks
          = v * 10 ^ (c :: ks).length + digits_value (c :: ks) := by
        rw [digits_value_cons, List.length_cons]; ring
      rw [e]; exact hfit
    have hv1 : 0 ≤ v * 10 + ((c : Int) - 48) := by positivity
    have hle : v * 10 + ((c : Int) - 48) ≤
        (v * 10 + ((c : Int) - 48)) * 10 ^ ks.length + digits_value ks := by nlinarith
    have hw1 : wrap_long (v * 10) = v * 10 := wrap_long_of_fits (by unfold fits_long; omega)
    have hw2 : wrap_long (v * 10 + ((c : Int) - 48)) = v * 10 + ((c : Int) - 48) :=
      wrap_long_of_fits (by unfold fits_long; omega)
    have hacc1 : rd = true → dpl < 3 := by
      intro h; have := hacc h; simp only [List.length_cons] at this; push_cast at this; omega
    rw [feed_cons, get_input_key_digit _ c hc (by simpa using hacc1)]
    simp only [key_result.locals, hw1, hw2, lor_push_cases ho]
    rw [ih (v * 10 + ((c : Int) - 48)) calc_oper.push _ _ _ hks1 _ (Or.inr rfl) hv1 hfit1]
    · simp only [List.length_cons, digits_value_cons, List.map_cons, reduceCtorEq, if_false]
      congr 1
      · congr 1
        · ring
        · split_ifs <;> rfl
      · cases rd
        · simp
        · simp; ring
      · push_cast; ring
      · simp
    · intro h
      have := hacc h
      simp only [List.length_cons] at this
      push_cast at this
      simp only [h, if_true]
      omega

/-- Appending trailing zeros multiplies by a power of ten as long as the
result fits `num_t`. -/
theorem add_trailing_zeros_eq (n : Nat) (x : Int) (hx : 0 ≤ x) (hfit : x * 10 ^ n < 2 ^ 63) :
    add_trailing_zeros n x = x * 10 ^ n := by
  induction n generalizing x with
  | zero => simp [add_trailing_zeros]
  | succ n ih =>
    have hpow : (1 : Int) ≤ 10 ^ n := one_le_pow₀ (by norm_num)
    have e : x * 10 ^ (n + 1) = x * 10 * 10 ^ n := by ring
    have hle : x * 10 ≤ x * 10 * 10 ^ n := by nlinarith
    have hw : wrap_long (x * 10) = x * 10 :=
      wrap_long_of_fits (by unfold fits_long; omega)
    rw [add_trailing_zeros, hw, ih (x * 10) (by omega) (by rw [← e]; exact hfit), e]

/-- The locals of `get_input` once the keys of a literal have been read. -/
theorem feed_literal_none (I : List Nat) (hI : ∀ c ∈ I, is_digit c)
    (hfit : digits_value I < 2 ^ 63) :
    feed get_input_init (literal_keys I Option.none) =
      ⟨⟨digits_value I, if I = [] then calc_oper.none else calc_oper.push⟩, false, 0, I.length,
        I.map out_event.putchar⟩ := by
  have h := feed_digits I 0 calc_oper.none false 0 0 [] hI (by simp) (Or.inl rfl) le_rfl
    (by simpa using hfit)
  simpa [literal_keys, get_input_init] using h

theorem feed_literal_some (I F : List Nat) (hI : ∀ c ∈ I, is_digit c) (hF : ∀ c ∈ F, is_digit c)
    (hfit : digits_value I * 10 ^ (F.take 3).length + digits_value (F.take 3) < 2 ^ 63) :
    feed get_input_init (literal_keys I (some F)) =
      ⟨⟨digits_value I * 10 ^ (F.take 3).length + digits_value (F.take 3),
          if I ++ F.take 3 = [] then calc_oper.none else calc_oper.push⟩,
        true, (F.take 3).length, I.length + 1 + (F.take 3).length,
        I.map out_event.putchar ++ [out_event.putchar 46] ++ (F.take 3).map out_event.putchar⟩ := by
  have hF3 : ∀ c ∈ F.take 3, is_digit c := fun c hc => hF c (List.mem_of_mem_take hc)
  have hFd : ∀ c ∈ F.drop 3, is_digit c := fun c hc => hF c (List.mem_of_mem_drop hc)
  have hlen3 : (F.take 3).length ≤ 3 := by simp
  have hdvF : 0 ≤ digits_value (F.take 3) := digits_value_nonneg _ hF3
  have hdvI : 0 ≤ digits_value I := digits_value_nonneg _ hI
  have hpow : (1 : Int) ≤ 10 ^ (F.take 3).length := one_le_pow₀ (by norm_num)
  have hIfit : digits_value I < 2 ^ 63 := by nlinarith
  have hkeys : literal_keys I (some F) = I ++ ([46] ++ (F.take 3 ++ F.drop 3)) := by
    simp [literal_keys]
  rw [hkeys, feed_append, feed_append, feed_append]
  have h1 := feed_digits I 0 calc_oper.none false 0 0 [] hI (by simp) (Or.inl rfl) le_rfl
    (by simpa using hIfit)
  simp only [zero_mul, zero_add, Bool.false_eq_true, if_false, List.nil_append] at h1
  have hinit : get_input_init = ⟨⟨0, calc_oper.none⟩, false, 0, 0, []⟩ := rfl
  rw [hinit, h1]
  have h2 : feed ⟨⟨digits_value I, if I = [] then calc_oper.none else calc_oper.push⟩, false, 0,
        I.length, I.map out_event.putchar⟩ [46] =
      ⟨⟨digits_value I, if I = [] then calc_oper.none else calc_oper.push⟩, true, 0,
        I.length + 1, I.map out_event.putchar ++ [out_event.putchar 46]⟩ := by
    simp [feed, get_input_key, key_result.locals]
  rw [h2]
  have ho : (if I = [] then calc_oper.none else calc_oper.push) = calc_oper.none ∨
      (if I = [] then calc_oper.none else calc_oper.push) = calc_oper.push := by
    split_ifs
    · exact Or.inl rfl
    · exact Or.inr rfl
  have h3 := feed_digits (F.take 3) (digits_value I)
    (if I = [] then calc_oper.none else calc_oper.push) true 0 (I.length + 1)
    (I.map out_event.putchar ++ [out_event.putchar 46]) hF3
    (by intro _; have : ((F.take 3).length : Int) ≤ 3 := by exact_mod_cast hlen3
        omega) ho hdvI hfit
  rw [h3]
  have h4 : ∀ l : get_input_locals, l.reading_decimal = true →
      l.decimal_place_length = (F.take 3).length → feed l (F.drop 3) = l := by
    intro l hrd hdpl
    by_cases hlen : 3 ≤ F.length
    · apply feed_digits_full _ _ hFd hrd
      have : (F.take 3).length = 3 := by simp [hlen]
      rw [hdpl, this]
      norm_num
    · have : F.drop 3 = [] := by
        apply List.drop_eq_nil_of_le
        omega
      rw [this, feed_nil]
  rw [h4 _ rfl (by simp)]
  simp only [if_true, zero_add, List.append_eq_nil]
  congr 2
  by_cases hI0 : I = [] <;> by_cases hF0 : F.take 3 = [] <;> simp [hI0, hF0]

theorem literal_keys_not_terminator (I : List Nat) (frac : Option (List Nat))
    (hI : ∀ c ∈ I, is_digit c) (hF : ∀ F, frac = some F → ∀ c ∈ F, is_digit c) :
    ∀ c ∈ literal_keys I frac, ¬ is_terminator c := by
  intro c hc
  unfold literal_keys at hc
  rcases List.mem_append.mp hc with h | h
  · exact not_terminator_of_digit (hI c h)
  · cases frac with
    | none => simp at h
    | some F =>
      rcases List.mem_cons.mp h with h | h
      · subst h; decide
      · exact not_terminator_of_digit (hF F rfl c h)

/-- A space or a newline sets the push flag and leaves the loop. -/
theorem get_input_loop_commit_push (l : get_input_locals) (t : Nat) (rest : List Nat)
    (ht : t = 32 ∨ t = 10) :
    get_input_loop l (t :: rest) =
      some ({ l with ret := { l.ret with oper := l.ret.oper ||| calc_oper.push } }, t, rest) := by
  rcases ht with h | h <;> subst h <;> simp [get_input_loop, get_input_key]

/-- With a non-zero echo count the tag is returned as decoded. -/
theorem commit_input_of_length (l : get_input_locals) (c : Nat) (h : l.input_length ≠ 0) :
    (commit_input l c).1 =
      ⟨add_trailing_zeros (3 - l.decimal_place_length).toNat l.ret.input_number, l.ret.oper⟩ := by
  simp [commit_input, h, FIXED_POINT_PERCISION]

theorem pow_three_split (k : Nat) (hk : k ≤ 3) : (10 : Int) ^ k * 10 ^ (3 - k) = 1000 := by
  rw [← pow_add, Nat.add_sub_cancel' hk]
  norm_num

/-- C1: a literal typed as the digits `I`, optionally followed by `.` and the
digits `F`, and committed with a space or a newline, is decoded as an event
with the push flag set and no operator tag, whose number is `int(I) * 1000`
plus the first three digits of `F` padded to three places, provided that
value fits `num_t`; the digits of `F` after the third play no part. -/
theorem get_input_decodes_literal (I : List Nat) (frac : Option (List Nat)) (t : Nat)
    (rest : List Nat) (hI : ∀ c ∈ I, is_digit c) (hF : ∀ F, frac = some F → ∀ c ∈ F, is_digit c)
    (hne : I ≠ [] ∨ frac ≠ Option.none) (ht : t = 32 ∨ t = 10)
    (hfit : fits_long (literal_value I frac)) :
    ∃ out, get_input (literal_keys I frac ++ t :: rest) =
      some ⟨⟨literal_value I frac, calc_oper.push⟩, out, rest⟩ := by
  have hdvI : 0 ≤ digits_value I := digits_value_nonneg _ hI
  have key : ∀ (r : get_input_result) (e : input_event), r.event = e → r.rest = rest →
      ∃ out, some r = some ⟨e, out, rest⟩ := by
    intro r e h1 h2
    exact ⟨r.out, by cases r; simp_all⟩
  unfold get_input
  rw [get_input_loop_append _ _ _ (literal_keys_not_terminator I frac hI hF),
    get_input_loop_commit_push _ _ _ ht]
  cases frac with
  | none =>
    have hI0 : I ≠ [] := by simpa using hne
    have hlen : (I.length : Int) ≠ 0 := by
      have := List.length_pos.mpr hI0
      omega
    have hfit1 : digits_value I * 10 ^ 3 < 2 ^ 63 := by
      have := hfit.2
      simp only [literal_value] at this
      omega
    rw [feed_literal_none I hI (by omega)]
    refine key _ _ ?_ rfl
    rw [commit_input_of_length _ _ hlen]
    simp only [hI0, if_false, sub_zero]
    rw [show (3 : Int).toNat = 3 from rfl, add_trailing_zeros_eq 3 _ hdvI hfit1]
    simp only [literal_value]
    congr 1
    norm_num
  | some F =>
    have hF1 := hF F rfl
    have hF3 : ∀ c ∈ F.take 3, is_digit c := fun c hc => hF1 c (List.mem_of_mem_take hc)
    have hdvF : 0 ≤ digits_value (F.take 3) := digits_value_nonneg _ hF3
    have hk : (F.take 3).length ≤ 3 := by simp
    have hpow1 : (1 : Int) ≤ 10 ^ (3 - (F.take 3).length) := one_le_pow₀ (by norm_num)
    have hval : (digits_value I * 10 ^ (F.take 3).length + digits_value (F.take 3)) *
        10 ^ (3 - (F.take 3).length) = literal_value I (some F) := by
      simp only [literal_value, fraction_value]
      rw [add_mul, mul_assoc, pow_three_split _ hk]
    have hpos : 0 ≤ digits_value I * 10 ^ (F.take 3).length + digits_value (F.take 3) := by
      positivity
    have hfit1 : digits_value I * 10 ^ (F.take 3).length + digits_value (F.take 3) < 2 ^ 63 := by
      have := hfit.2
      rw [← hval] at this
      nlinarith
    have hlen : ((I.length : Int) + 1 + (F.take 3).length) ≠ 0 := by omega
    rw [feed_literal_some I F hI hF1 hfit1]
    refine key _ _ ?_ rfl
    rw [commit_input_of_length _ _ hlen]
    have htn : ((3 : Int) - ((F.take 3).length : Int)).toNat = 3 - (F.take 3).length := by omega
    simp only [htn]
    rw [add_trailing_zeros_eq _ _ hpos (by rw [hval]; exact hfit.2), hval]
    congr 1
    split_ifs <;> decide

/-- C1 at the keys `12.3456` and a space: the event carries 12345. -/
theorem get_input_decodes_literal_witness :
    ∃ out, get_input (literal_keys [49, 50] (some [51, 52, 53, 54]) ++ 32 :: []) =
      some ⟨⟨12345, calc_oper.push⟩, out, []⟩ :=
  get_input_decodes_literal [49, 50] (some [51, 52, 53, 54]) 32 [] (by decide)
    (by intro F h; cases h; decide) (Or.inl (by decide)) (Or.inl rfl) (by decide)

/-! ## The stack -/

theorem stack_contents_length (st : rpn_state) :
    (stack_contents st).length = st.rpn_stk_index.toNat := by
  simp [stack_contents]

theorem index_of_contents {st : rpn_state} {s : List Int} (h0 : 0 ≤ st.rpn_stk_index)
    (hs : stack_contents st = s) : st.rpn_stk_index = s.length := by
  have := stack_contents_length st
  rw [hs] at this
  omega

theorem index_of_contents_concat {st : rpn_state} {s : List Int} {b : Int}
    (hs : stack_contents st = s ++ [b]) : st.rpn_stk_index = s.length + 1 := by
  have := stack_contents_length st
  rw [hs] at this
  simp only [List.length_append, List.length_singleton] at this
  omega

/-- Popping a stack that ends in `b` returns `b` and leaves the rest. -/
theorem rpn_pop_of_contents {st : rpn_state} {s : List Int} {b : Int}
    (hs : stack_contents st = s ++ [b]) :
    rpn_pop st = (b, { st with rpn_stk_index := st.rpn_stk_index - 1 }) ∧
      stack_contents { st with rpn_stk_index := st.rpn_stk_index - 1 } = s := by
  have hidx := index_of_contents_concat hs
  have hne : st.rpn_stk_index ≠ 0 := by omega
  have h1 : st.rpn_stk_index.toNat = s.length + 1 := by omega
  have h2 : (st.rpn_stk_index - 1).toNat = s.length := by omega
  unfold stack_contents at hs
  rw [h1, List.range_succ, List.map_append] at hs
  have hinj := List.append_inj' hs (by simp)
  have hb : st.rpn_stack (st.rpn_stk_index - 1) = b := by
    have := hinj.2
    simp only [List.map_cons, List.map_nil, List.cons.injEq, and_true] at this
    rw [← this]
    congr 1
    omega
  constructor
  · simp [rpn_pop, hne, hb]
  · simp only [stack_contents, h2]
    exact hinj.1

/-- Pushing on a stack that is not full appends the value as stored in an
`int` cell. -/
theorem rpn_push_of_contents {st : rpn_state} {s : List Int} (v : Int)
    (h0 : 0 ≤ st.rpn_stk_index) (hs : stack_contents st = s) (hlen : s.length < 256) :
    rpn_push st v =
        { st with
          rpn_stack := fun i => if i = st.rpn_stk_index then wrap_int v else st.rpn_stack i,
          rpn_stk_index := st.rpn_stk_index + 1 } ∧
      stack_contents (rpn_push st v) = s ++ [wrap_int v] := by
  have hidx := index_of_contents h0 hs
  have hne : st.rpn_stk_index ≠ STACK_SIZE := by unfold STACK_SIZE; omega
  have h1 : (st.rpn_stk_index + 1).toNat = st.rpn_stk_index.toNat + 1 := by omega
  have hpush : rpn_push st v =
      { st with
        rpn_stack := fun i => if i = st.rpn_stk_index then wrap_int v else st.rpn_stack i,
        rpn_stk_index := st.rpn_stk_index + 1 } := by
    simp [rpn_push, hne]
  refine ⟨hpush, ?_⟩
  rw [hpush, ← hs]
  simp only [stack_contents, h1, List.range_succ, List.map_append, List.map_cons, List.map_nil]
  congr 1
  · apply List.map_congr_left
    intro i hi
    have hi1 : i < st.rpn_stk_index.toNat := List.mem_range.mp hi
    have : (i : Int) ≠ st.rpn_stk_index := by omega
    simp [this]
  · have : ((st.rpn_stk_index.toNat : Nat) : Int) = st.rpn_stk_index := by omega
    simp [this]

/-- Popping the empty stack returns 1, writes the message and raises the flag. -/
theorem rpn_pop_of_empty {st : rpn_state} (h : st.rpn_stk_index = 0) :
    rpn_pop st =
      (1, { st with out := st.out ++ [.stack_underflow], reset_status := true }) := by
  simp [rpn_pop, h]

/-- Pushing on the full stack writes the message, raises the flag and stores
nothing. -/
theorem rpn_push_of_full {st : rpn_state} (v : Int) (h : st.rpn_stk_index = 256) :
    rpn_push st v = { st with out := st.out ++ [.stack_overflow], reset_status := true } := by
  simp [rpn_push, h, STACK_SIZE]

theorem stack_contents_reset (st : rpn_state) (v : Int) :
    stack_contents (rpn_reset st v) = if v = 0 then [] else [wrap_int v] := by
  by_cases h : v = 0
  · simp [stack_contents, rpn_reset, h]
  · simp [stack_contents, rpn_reset, h, List.range_succ]

/-! ## One cycle of `rpn_proc` -/

theorem stack_contents_with_ans (st : rpn_state) (x : Int) :
    stack_contents { st with ans := x } = stack_contents st := rfl

theorem rpn_peek_of_contents {st : rpn_state} {s : List Int} {b : Int}
    (hs : stack_contents st = s ++ [b]) : rpn_peek st = b := by
  have h := (rpn_pop_of_contents hs).1
  have hidx := index_of_contents_concat hs
  have hne : st.rpn_stk_index ≠ 0 := by omega
  simp only [rpn_pop, hne, if_false, Prod.mk.injEq] at h
  simp [rpn_peek, hne, h.1]

/-- The end of a cycle in which no fault was flagged only prints the top. -/
theorem rpn_cycle_end_of_clear {st : rpn_state} (h : st.reset_status = false) :
    rpn_cycle_end st = { st with out := st.out ++ [.display (rpn_peek st)] } := by
  simp [rpn_cycle_end, h]

/-- A cycle on an event that is a bare operator: pop into `ans`, apply. -/
theorem rpn_cycle_bare_operator (st : rpn_state) (input : input_event)
    (hop : is_operator input.oper) :
    rpn_cycle st input =
      match rpn_apply { (rpn_pop st).2 with ans := (rpn_pop st).1 } input.oper with
      | Option.none => .div_by_zero { (rpn_pop st).2 with ans := (rpn_pop st).1 }
      | some st3 => .continued (rpn_cycle_end st3) := by
  unfold rpn_cycle
  rcases hop with h | h | h | h <;> rw [h] <;> rfl

/-- The `switch` of `rpn_proc` on a stack that ends in `a`, with room to push:
the second operand `a` is popped and the result of `ans` and `a` pushed. -/
theorem rpn_apply_of_contents {st : rpn_state} {s : List Int} {a : Int} (op : Nat)
    (hop : is_operator op) (hs : stack_contents st = s ++ [a]) (hlen : s.length < 256)
    (ha : fits_int a) (hans : fits_int st.ans) (hdiv : op = calc_oper.divide → a ≠ 0) :
    ∃ st3, rpn_apply st op = some st3 ∧
      stack_contents st3 = s ++ [wrap_int (fixed_point_result op st.ans a)] ∧
      st3.ans = st.ans ∧ st3.reset_status = st.reset_status ∧ st3.out = st.out := by
  obtain ⟨hpop, hs1⟩ := rpn_pop_of_contents hs
  have hidx := index_of_contents_concat hs
  have h0 : 0 ≤ ({ st with rpn_stk_index := st.rpn_stk_index - 1 } : rpn_state).rpn_stk_index := by
    simp only; omega
  have hmul : wrap_long (st.ans * a) = st.ans * a := by
    apply wrap_long_of_fits
    unfold fits_int at ha hans
    unfold fits_long
    constructor <;> nlinarith
  have hk : wrap_long (st.ans * calc_divider) = st.ans * 1000 := by
    rw [calc_divider_eq]
    apply wrap_long_of_fits
    unfold fits_int at hans
    unfold fits_long
    omega
  have hww : ∀ x : Int, wrap_int (wrap_long x) = wrap_int x := by
    intro x; unfold wrap_int wrap_long; omega
  rcases hop with h | h | h | h <;> subst h
  · obtain ⟨hp, hc⟩ := rpn_push_of_contents (wrap_long (st.ans + a)) h0 hs1 hlen
    refine ⟨_, by simp only [rpn_apply, if_true, hpop]; rfl, ?_, ?_, ?_, ?_⟩
    · rw [hc, hww]; rfl
    all_goals rw [hp]
  · obtain ⟨hp, hc⟩ := rpn_push_of_contents (wrap_long (st.ans - a)) h0 hs1 hlen
    refine ⟨_, by simp only [rpn_apply, hpop]; rfl, ?_, ?_, ?_, ?_⟩
    · rw [hc, hww]; rfl
    all_goals rw [hp]
  · obtain ⟨hp, hc⟩ := rpn_push_of_contents
      (wrap_long (Int.tdiv (wrap_long (st.ans * a)) calc_divider)) h0 hs1 hlen
    refine ⟨_, by simp only [rpn_apply, hpop]; rfl, ?_, ?_, ?_, ?_⟩
    · rw [hc, hww, hmul, calc_divider_eq]; rfl
    all_goals rw [hp]
  · obtain ⟨hp, hc⟩ := rpn_push_of_contents
      (wrap_long (Int.tdiv (wrap_long (st.ans * calc_divider)) a)) h0 hs1 hlen
    have ha0 : a ≠ 0 := hdiv rfl
    refine ⟨_, by simp only [rpn_apply, hpop, ha0]; rfl, ?_, ?_, ?_, ?_⟩
    · rw [hc, hww, hk]; rfl
    all_goals rw [hp]

/-- C2: on a stack `s ++ [a, b]` (`b` on top) with the error flag clear, a
cycle on a bare operator event sets `ans = b` and leaves `s ++ [r]`, with
`r = b + a`, `b - a`, `(b * a) / 1000` or, for non-zero `a`, `(b * 1000) / a`
(division truncating toward zero), provided `r` fits a stack cell; no fault
is flagged and `r` is what the cycle displays. -/
theorem rpn_cycle_bare_operator_result (st : rpn_state) (s : List Int) (a b : Int)
    (input : input_event) (hs : stack_contents st = s ++ [a, b])
    (hidx : st.rpn_stk_index ≤ STACK_SIZE) (hflag : st.reset_status = false)
    (ha : fits_int a) (hb : fits_int b) (hop : is_operator input.oper)
    (hdiv : input.oper = calc_oper.divide → a ≠ 0)
    (hr : fits_int (fixed_point_result input.oper b a)) :
    ∃ st1, rpn_cycle st input = .continued st1 ∧ st1.ans = b ∧
      stack_contents st1 = s ++ [fixed_point_result input.oper b a] ∧
      st1.reset_status = false ∧
      st1.out = st.out ++ [.display (fixed_point_result input.oper b a)] := by
  have hs1 : stack_contents st = (s ++ [a]) ++ [b] := by simpa using hs
  obtain ⟨hpop, hc⟩ := rpn_pop_of_contents hs1
  have hi := index_of_contents_concat hs1
  have hlen : s.length < 256 := by
    simp only [List.length_append, List.length_singleton, STACK_SIZE] at hi hidx
    push_cast at hi
    omega
  have hc1 : stack_contents
      ({ ({ st with rpn_stk_index := st.rpn_stk_index - 1 } : rpn_state) with ans := b }) =
      s ++ [a] := hc
  obtain ⟨st3, h3, hc3, hans3, hflag3, hout3⟩ :=
    rpn_apply_of_contents input.oper hop hc1 hlen ha hb hdiv
  rw [wrap_int_of_fits hr] at hc3
  have hflag3a : st3.reset_status = false := by rw [hflag3]; exact hflag
  refine ⟨rpn_cycle_end st3, ?_, ?_, ?_, ?_, ?_⟩
  · rw [rpn_cycle_bare_operator st input hop, hpop]
    simp only [h3]
  · rw [rpn_cycle_end_of_clear hflag3a]; exact hans3
  · rw [rpn_cycle_end_of_clear hflag3a]; exact hc3
  · rw [rpn_cycle_end_of_clear hflag3a]; exact hflag3a
  · rw [rpn_cycle_end_of_clear hflag3a]
    simp only [rpn_peek_of_contents hc3, hout3]

/-- C2 at the stack 2.000, 3.000 and the key `*`: the top becomes 6.000. -/
theorem rpn_cycle_bare_operator_result_witness :
    ∃ st1, rpn_cycle (rpn_push (rpn_push rpn_initial 2000) 3000) ⟨0, calc_oper.multiply⟩ =
        .continued st1 ∧ st1.ans = 3000 ∧
      stack_contents st1 = [6000] ∧ st1.reset_status = false ∧
      st1.out = [.display 6000] :=
  rpn_cycle_bare_operator_result (rpn_push (rpn_push rpn_initial 2000) 3000) [] 2000 3000
    ⟨0, calc_oper.multiply⟩ (by decide) (by decide) (by decide) (by decide) (by decide)
    (by decide) (by decide) (by decide)

/-- C3: the keys `6 2 /` (6.000 and 2.000 pushed, then a bare `/`) leave 0.333
on the stack, not 3.000: the bare operator divides the top by the operand
below it.  The keys `6 2/`, where the literal and the operator form one
event, leave 3.000. -/
theorem bare_divide_swaps_operands :
    (∃ st, rpn_cycles rpn_initial
        [⟨6000, calc_oper.push⟩, ⟨2000, calc_oper.push⟩, ⟨0, calc_oper.divide⟩] =
          .continued st ∧ stack_contents st = [333]) ∧
    (∃ st, rpn_proc rpn_initial [54, 32, 50, 32, 47] = .waiting st ∧
        stack_contents st = [333]) ∧
    (∃ st, rpn_proc rpn_initial [54, 32, 50, 47] = .waiting st ∧
        stack_contents st = [3000]) :=
  ⟨⟨_, rfl, by decide⟩, ⟨_, rfl, by decide⟩, ⟨_, rfl, by decide⟩⟩

/-- C4: an event whose tag is exactly `quit` makes the cycle return 0 with the
globals untouched, but the keys `5` ESC decode to `quit` with the push flag,
which the cycle does not recognise: after `7`, space, `5`, ESC the program
has popped 7.000 into `ans`, pushed 5.000 and waits for the next key. -/
theorem quit_with_push_flag_does_not_quit :
    (∀ (st : rpn_state) (input : input_event), input.oper = calc_oper.quit →
        rpn_cycle st input = .returned 0 st) ∧
    (get_input [53, 27]).map (fun r => r.event) =
      some ⟨5000, calc_oper.quit ||| calc_oper.push⟩ ∧
    (∃ st, rpn_cycle (rpn_push rpn_initial 7000) ⟨5000, calc_oper.quit ||| calc_oper.push⟩ =
        .continued st ∧ stack_contents st = [5000] ∧ st.ans = 7000) ∧
    (∃ st, rpn_proc rpn_initial [55, 32, 53, 27] = .waiting st ∧
        stack_contents st = [5000] ∧ st.ans = 7000) := by
  refine ⟨?_, by decide, ⟨_, rfl, by decide, by decide⟩, ⟨_, rfl, by decide, by decide⟩⟩
  intro st input h
  simp [rpn_cycle, h]

/-- The key `;` leaves the loop with the tag `ac`, whatever was decoded. -/
theorem get_input_loop_ac (l : get_input_locals) (rest : List Nat) :
    get_input_loop l (59 :: rest) =
      some ({ l with ret := { l.ret with oper := calc_oper.ac } }, 59, rest) := by
  simp [get_input_loop, get_input_key]

/-- C5: after any keys that do not end the event, the key `;` makes
`get_input` return the tag `ac` with no push flag, and the cycle on that event
empties the stack, whatever it held, pushes nothing, leaves `ans` alone and
displays nothing. -/
theorem clear_all_discards_input (ks rest : List Nat) (hks : ∀ c ∈ ks, ¬ is_terminator c) :
    ∃ n out, get_input (ks ++ 59 :: rest) = some ⟨⟨n, calc_oper.ac⟩, out, rest⟩ ∧
      calc_oper.ac &&& calc_oper.push = 0 ∧
      ∀ st : rpn_state, ∃ st1, rpn_cycle st ⟨n, calc_oper.ac⟩ = .continued st1 ∧
        st1.rpn_stk_index = 0 ∧ stack_contents st1 = [] ∧ st1.ans = st.ans ∧
        st1.reset_status = st.reset_status ∧ st1.out = st.out ++ [.putchar 10] := by
  have hget : get_input (ks ++ 59 :: rest) =
      some ⟨⟨add_trailing_zeros
              (FIXED_POINT_PERCISION - (feed get_input_init ks).decimal_place_length).toNat
              (feed get_input_init ks).ret.input_number, calc_oper.ac⟩,
        (feed get_input_init ks).out ++ [.putchar 59], rest⟩ := by
    unfold get_input
    rw [get_input_loop_append _ _ _ hks, get_input_loop_ac]
    have h : (calc_oper.ac &&& calc_oper.not_push = 0) = False := by decide
    simp [commit_input, h]
  refine ⟨_, _, hget, by decide, ?_⟩
  intro st
  refine ⟨_, rfl, rfl, ?_, rfl, rfl, rfl⟩
  simp [stack_contents, rpn_reset]

/-- C5 at the keys `1 2 . 5 _` DEL `x ;` and at the stack `[5000]`. -/
theorem clear_all_discards_input_witness :
    ∃ n out, get_input ([49, 50, 46, 53, 95, 127, 120] ++ 59 :: []) =
        some ⟨⟨n, calc_oper.ac⟩, out, []⟩ ∧
      ∃ st1, rpn_cycle (rpn_push rpn_initial 5000) ⟨n, calc_oper.ac⟩ = .continued st1 ∧
        st1.rpn_stk_index = 0 ∧ stack_contents st1 = [] ∧ st1.ans = 0 :=
  (clear_all_discards_input [49, 50, 46, 53, 95, 127, 120] [] (by decide)).imp
    (fun _ hn => hn.imp (fun _ h => ⟨h.1, (h.2.2 (rpn_push rpn_initial 5000)).imp
      (fun _ hc => ⟨hc.1, hc.2.1, hc.2.2.1, hc.2.2.2.1⟩)⟩))

/-- C6: on a stack holding `x` alone, a bare `-` pops `x` into `ans`, finds the
stack empty at the second pop (the underflow message is written once), and
the cycle ends with the stack reset to `[x]`, empty when `x = 0`, and the
error flag cleared. -/
theorem bare_minus_on_single_underflows (st : rpn_state) (x : Int) (input : input_event)
    (hs : stack_contents st = [x]) (hx : fits_int x)
    (hop : input.oper = calc_oper.minus) :
    (rpn_pop st).1 = x ∧
    rpn_pop { (rpn_pop st).2 with ans := (rpn_pop st).1 } =
      (1, { (rpn_pop st).2 with
            ans := x, out := st.out ++ [.stack_underflow], reset_status := true }) ∧
    ∃ st1, rpn_cycle st input = .continued st1 ∧ st1.ans = x ∧
      stack_contents st1 = (if x = 0 then [] else [x]) ∧ st1.reset_status = false ∧
      st1.out = st.out ++ [.stack_underflow, .display x] := by
  have hs1 : stack_contents st = [] ++ [x] := hs
  obtain ⟨hpop, -⟩ := rpn_pop_of_contents hs1
  have hidx : st.rpn_stk_index = 1 := by
    have := index_of_contents_concat hs1
    simpa using this
  have hwx := wrap_int_of_fits hx
  refine ⟨by rw [hpop], ?_, ?_⟩
  · rw [hpop]
    simp [rpn_pop, hidx]
  · refine ⟨_, by rw [rpn_cycle_bare_operator st input (Or.inr (Or.inl hop)), hpop, hop]; rfl,
      ?_, ?_, ?_, ?_⟩
    · simp [rpn_cycle_end, rpn_apply, rpn_pop, rpn_push, rpn_reset, hidx, STACK_SIZE]
    · by_cases h0 : x = 0
      · simp [rpn_cycle_end, rpn_apply, rpn_pop, rpn_push, rpn_reset, hidx, STACK_SIZE,
          stack_contents, h0]
      · simp [rpn_cycle_end, rpn_apply, rpn_pop, rpn_push, rpn_reset, hidx, STACK_SIZE,
          stack_contents, h0, hwx, List.range_succ]
    · simp [rpn_cycle_end, rpn_apply, rpn_pop, rpn_push, rpn_reset, hidx, STACK_SIZE]
    · by_cases h0 : x = 0
      · simp [rpn_cycle_end, rpn_apply, rpn_pop, rpn_push, rpn_reset, rpn_peek, hidx,
          STACK_SIZE, h0]
      · simp [rpn_cycle_end, rpn_apply, rpn_pop, rpn_push, rpn_reset, rpn_peek, hidx,
          STACK_SIZE, h0, hwx]

/-- C6 at the stack `[5000]`. -/
theorem bare_minus_on_single_underflows_witness :
    (rpn_pop (rpn_push rpn_initial 5000)).1 = 5000 ∧
    rpn_pop { (rpn_pop (rpn_push rpn_initial 5000)).2 with
              ans := (rpn_pop (rpn_push rpn_initial 5000)).1 } =
      (1, { (rpn_pop (rpn_push rpn_initial 5000)).2 with
            ans := 5000, out := (rpn_push rpn_initial 5000).out ++ [.stack_underflow],
            reset_status := true }) ∧
    ∃ st1, rpn_cycle (rpn_push rpn_initial 5000) ⟨0, calc_oper.minus⟩ = .continued st1 ∧
      st1.ans = 5000 ∧ stack_contents st1 = [5000] ∧ st1.reset_status = false ∧
      st1.out = [.stack_underflow, .display 5000] :=
  bare_minus_on_single_underflows (rpn_push rpn_initial 5000) 5000 ⟨0, calc_oper.minus⟩
    (by decide) (by decide) rfl

/-- A cycle on a push-only event, with room on the stack: the literal is
appended as stored in an `int` cell and displayed. -/
theorem rpn_cycle_push_only (st : rpn_state) (input : input_event) (s : List Int)
    (hop : input.oper = calc_oper.push) (h0 : 0 ≤ st.rpn_stk_index)
    (hs : stack_contents st = s) (hlen : s.length < 256) (hflag : st.reset_status = false) :
    ∃ st1, rpn_cycle st input = .continued st1 ∧
      stack_contents st1 = s ++ [wrap_int input.input_number] ∧ st1.ans = st.ans ∧
      st1.reset_status = false ∧ 0 ≤ st1.rpn_stk_index ∧
      st1.out = st.out ++ [.display (wrap_int input.input_number)] := by
  obtain ⟨hp, hc⟩ := rpn_push_of_contents input.input_number h0 hs hlen
  have hcyc : rpn_cycle st input = .continued (rpn_cycle_end (rpn_push st input.input_number)) := by
    unfold rpn_cycle
    rw [hop]
    rfl
  have hf : (rpn_push st input.input_number).reset_status = false := by rw [hp]; exact hflag
  refine ⟨_, hcyc, ?_, ?_, ?_, ?_, ?_⟩
  · rw [rpn_cycle_end_of_clear hf]; exact hc
  · rw [rpn_cycle_end_of_clear hf, hp]
  · rw [rpn_cycle_end_of_clear hf]; exact hf
  · rw [rpn_cycle_end_of_clear hf, hp]; simp only; omega
  · rw [rpn_cycle_end_of_clear hf]
    simp only [rpn_peek_of_contents hc]
    rw [hp]

/-- Push-only events, as long as they fit on the stack, append their literals. -/
theorem rpn_cycles_push_only (inputs : List input_event) (st : rpn_state) (s : List Int)
    (hop : ∀ e ∈ inputs, e.oper = calc_oper.push) (h0 : 0 ≤ st.rpn_stk_index)
    (hs : stack_contents st = s) (hlen : s.length + inputs.length ≤ 256)
    (hflag : st.reset_status = false) :
    ∃ st1, rpn_cycles st inputs = .continued st1 ∧
      stack_contents st1 = s ++ inputs.map (fun e => wrap_int e.input_number) ∧
      st1.ans = st.ans ∧ st1.reset_status = false ∧ 0 ≤ st1.rpn_stk_index ∧
      st1.out = st.out ++ inputs.map (fun e => out_event.display (wrap_int e.input_number)) := by
  induction inputs generalizing st s with
  | nil => exact ⟨st, rfl, by simpa using hs, rfl, hflag, h0, by simp⟩
  | cons e es ih =>
    simp only [List.length_cons] at hlen
    obtain ⟨st1, h1, hc1, ha1, hf1, hi1, ho1⟩ :=
      rpn_cycle_push_only st e s (hop e (List.mem_cons_self _ _)) h0 hs (by omega) hflag
    obtain ⟨st2, h2, hc2, ha2, hf2, hi2, ho2⟩ :=
      ih st1 _ (fun x hx => hop x (List.mem_cons_of_mem _ hx)) hi1 hc1
        (by simp only [List.length_append, List.length_singleton]; omega) hf1
    refine ⟨st2, ?_, ?_, ?_, hf2, hi2, ?_⟩
    · simp only [rpn_cycles, h1]; exact h2
    · simpa using hc2
    · rw [ha2, ha1]
    · rw [ho2, ho1]; simp

/-- A cycle on a push-only event when the stack is full: the overflow message
is written, the literal is not stored, and the stack is reset to `[ans]`. -/
theorem rpn_cycle_push_only_full (st : rpn_state) (input : input_event)
    (hop : input.oper = calc_oper.push) (hidx : st.rpn_stk_index = 256)
    (hans : fits_int st.ans) :
    ∃ st1, rpn_cycle st input = .continued st1 ∧
      stack_contents st1 = (if st.ans = 0 then [] else [st.ans]) ∧ st1.ans = st.ans ∧
      st1.reset_status = false ∧
      st1.out = st.out ++ [.stack_overflow, .display st.ans] := by
  have hcyc : rpn_cycle st input = .continued (rpn_cycle_end (rpn_push st input.input_number)) := by
    unfold rpn_cycle
    rw [hop]
    rfl
  have hw := wrap_int_of_fits hans
  rw [hcyc, rpn_push_of_full _ hidx]
  refine ⟨_, rfl, ?_, ?_, ?_, ?_⟩
  · by_cases h : st.ans = 0
    · simp [rpn_cycle_end, rpn_reset, stack_contents, h]
    · simp [rpn_cycle_end, rpn_reset, stack_contents, h, hw, List.range_succ]
  · simp [rpn_cycle_end, rpn_reset]
  · simp [rpn_cycle_end, rpn_reset]
  · by_cases h : st.ans = 0
    · simp [rpn_cycle_end, rpn_reset, rpn_peek, h]
    · simp [rpn_cycle_end, rpn_reset, rpn_peek, h, hw]

/-- C7: from the empty stack, each of the first 256 push-only events is
stored without a fault (after `k ≤ 256` of them the stack holds their `k`
literals and the flag is clear); a further push-only event finds the stack
full: the overflow message is written, nothing is stored, and the cycle ends
with the stack reset to `[ans]`, empty when `ans = 0`, and the flag cleared. -/
theorem push_beyond_capacity_overflows (st : rpn_state) (inputs : List input_event)
    (extra : input_event) (hidx : st.rpn_stk_index = 0) (hflag : st.reset_status = false)
    (hans : fits_int st.ans) (hpush : ∀ e ∈ inputs, e.oper = calc_oper.push)
    (hlen : inputs.length = 256) (hextra : extra.oper = calc_oper.push) :
    (∀ k ≤ 256, ∃ stk, rpn_cycles st (inputs.take k) = .continued stk ∧
      stack_contents stk = (inputs.take k).map (fun e => wrap_int e.input_number) ∧
      (stack_contents stk).length = k ∧ stk.reset_status = false ∧
      stk.out = st.out ++
        (inputs.take k).map (fun e => out_event.display (wrap_int e.input_number))) ∧
    ∃ st256 st257, rpn_cycles st inputs = .continued st256 ∧
      (stack_contents st256).length = 256 ∧
      rpn_push st256 extra.input_number =
        { st256 with out := st256.out ++ [.stack_overflow], reset_status := true } ∧
      rpn_cycle st256 extra = .continued st257 ∧
      stack_contents st257 = (if st.ans = 0 then [] else [st.ans]) ∧
      (stack_contents st257).length ≤ 256 ∧ st257.reset_status = false ∧
      st257.out = st256.out ++ [.stack_overflow, .display st.ans] := by
  have hs : stack_contents st = [] := by simp [stack_contents, hidx]
  constructor
  · intro k hk
    have hlk : (inputs.take k).length = k := by simp [hlen, hk]
    obtain ⟨stk, h1, hc, -, hf, -, ho⟩ :=
      rpn_cycles_push_only (inputs.take k) st [] (fun e he => hpush e (List.mem_of_mem_take he))
        (by omega) hs (by simp only [List.length_nil]; omega) hflag
    refine ⟨stk, h1, by simpa using hc, ?_, hf, ho⟩
    rw [hc]
    simp only [List.nil_append, List.length_map, hlk]
  · obtain ⟨st256, h1, hc, ha, hf, hi, -⟩ :=
      rpn_cycles_push_only inputs st [] hpush (by omega) hs
        (by simp only [List.length_nil]; omega) hflag
    have hl : (stack_contents st256).length = 256 := by rw [hc]; simp [hlen]
    have hidx256 : st256.rpn_stk_index = 256 := by
      have := stack_contents_length st256
      omega
    obtain ⟨st257, h2, hc2, -, hf2, ho2⟩ :=
      rpn_cycle_push_only_full st256 extra hextra hidx256 (by rw [ha]; exact hans)
    rw [ha] at hc2 ho2
    refine ⟨st256, st257, h1, hl, rpn_push_of_full _ hidx256, h2, hc2, ?_, hf2, ho2⟩
    rw [hc2]
    split_ifs <;> simp

/-- C7 from the initial state with 256 literals 1.000 and then 2.000. -/
theorem push_beyond_capacity_overflows_witness :
    (∃ stk,
      rpn_cycles rpn_initial ((List.replicate 256 ⟨1000, calc_oper.push⟩).take 256) =
        .continued stk ∧
      (stack_contents stk).length = 256 ∧ stk.reset_status = false) ∧
    ∃ st256 st257,
      rpn_cycles rpn_initial (List.replicate 256 ⟨1000, calc_oper.push⟩) = .continued st256 ∧
      (stack_contents st256).length = 256 ∧
      rpn_push st256 2000 =
        { st256 with out := st256.out ++ [.stack_overflow], reset_status := true } ∧
      rpn_cycle st256 ⟨2000, calc_oper.push⟩ = .continued st257 ∧
      stack_contents st257 = [] ∧
      (stack_contents st257).length ≤ 256 ∧ st257.reset_status = false ∧
      st257.out = st256.out ++ [.stack_overflow, .display 0] :=
  have h := push_beyond_capacity_overflows rpn_initial (List.replicate 256 ⟨1000, calc_oper.push⟩)
    ⟨2000, calc_oper.push⟩ rfl rfl (by decide)
    (fun e he => by rw [List.eq_of_mem_replicate he]) (List.length_replicate _ _) rfl
  ⟨(h.1 256 le_rfl).imp (fun _ hk => ⟨hk.1, hk.2.2.1, hk.2.2.2.1⟩), h.2⟩

/-- C8: after `12.5`, one DEL gives the locals of `12.` and a space then
commits 12.000; the second DEL, which erases the `.`, also divides the number
by ten, so the locals hold 1 where typing `12` leaves 12, and a space commits
1.000, not 12.000; after the third DEL a space commits 0, not 1.000. -/
theorem backspace_over_point_drops_digit :
    (feed get_input_init [49, 50, 46, 53, 127]).ret.input_number = 12 ∧
    (feed get_input_init [49, 50, 46, 53, 127]).reading_decimal = true ∧
    (feed get_input_init [49, 50, 46, 53, 127]).decimal_place_length = 0 ∧
    (feed get_input_init [49, 50, 46, 53, 127, 127]).ret.input_number = 1 ∧
    (feed get_input_init [49, 50, 46, 53, 127, 127]).reading_decimal = false ∧
    (feed get_input_init [49, 50]).ret.input_number = 12 ∧
    (get_input [49, 50, 46, 53, 127, 32]).map (fun r => r.event) =
      some ⟨12000, calc_oper.push⟩ ∧
    (get_input [49, 50, 46, 53, 127, 127, 32]).map (fun r => r.event) =
      some ⟨1000, calc_oper.push⟩ ∧
    (get_input [49, 50, 46, 53, 127, 127, 127, 32]).map (fun r => r.event) =
      some ⟨0, calc_oper.push⟩ ∧
    (get_input [49, 50, 46, 53, 127, 127, 127, 127, 32]).map (fun r => r.event) =
      some ⟨0, calc_oper.none⟩ ∧
    (get_input [49, 50, 32]).map (fun r => r.event) = some ⟨12000, calc_oper.push⟩ := by
  decide

/-- C10: a lone space or newline is decoded as the event with tag `none` and
no push flag, with nothing echoed; and a cycle on an event with tag `none`,
entered with the error flag clear, changes neither the stack array, nor the
index, nor `ans`: it only displays the top. -/
theorem empty_line_is_no_op (t : Nat) (rest : List Nat) (ht : t = 32 ∨ t = 10) :
    get_input (t :: rest) = some ⟨⟨0, calc_oper.none⟩, [], rest⟩ ∧
    calc_oper.none &&& calc_oper.push = 0 ∧
    ∀ (st : rpn_state) (input : input_event), input.oper = calc_oper.none →
      st.reset_status = false →
      rpn_cycle st input = .continued { st with out := st.out ++ [.display (rpn_peek st)] } := by
  refine ⟨?_, by decide, ?_⟩
  · have h : ((calc_oper.none ||| calc_oper.push) &&& calc_oper.not_push = 0) = True := by
      decide
    unfold get_input
    rw [get_input_loop_commit_push _ _ _ ht]
    simp [commit_input, get_input_init, h, FIXED_POINT_PERCISION, add_trailing_zeros,
      wrap_long]
  · intro st input hop hflag
    have hcyc : rpn_cycle st input = .continued (rpn_cycle_end st) := by
      unfold rpn_cycle
      rw [hop]
      rfl
    rw [hcyc, rpn_cycle_end_of_clear hflag]

/-- C10 at a lone newline, and at the stack `[5000]` for the cycle. -/
theorem empty_line_is_no_op_witness :
    get_input (10 :: []) = some ⟨⟨0, calc_oper.none⟩, [], []⟩ ∧
    rpn_cycle (rpn_push rpn_initial 5000) ⟨0, calc_oper.none⟩ =
      .continued { rpn_push rpn_initial 5000 with out := [.display 5000] } :=
  ⟨(empty_line_is_no_op 10 [] (Or.inr rfl)).1,
    (empty_line_is_no_op 10 [] (Or.inr rfl)).2.2 (rpn_push rpn_initial 5000)
      ⟨0, calc_oper.none⟩ rfl rfl⟩

/-! ## Negation of the literal -/

theorem fits_long_tdiv_ten {x : Int} (h : fits_long x) : fits_long (Int.tdiv x 10) := by
  unfold fits_long at h ⊢
  rcases le_or_lt 0 x with hx | hx
  · rw [Int.tdiv_eq_ediv hx (by norm_num)]
    omega
  · have e : Int.tdiv x 10 = -((-x) / 10) := by
      rw [← Int.tdiv_eq_ediv (by omega) (by norm_num), Int.neg_tdiv, neg_neg]
    rw [e]
    omega

/-- The kinds of key that the loop of `get_input` tells apart. -/
theorem key_cases (c : Nat) :
    is_digit c ∨ c = 46 ∨ c = 95 ∨ c = 127 ∨ is_terminator c ∨
      (¬ is_digit c ∧ c ≠ 46 ∧ c ≠ 95 ∧ c ≠ 127 ∧ ¬ is_terminator c) := by
  unfold is_digit is_terminator
  omega

/-- A digit key is either accepted or, after three fractional digits, dropped. -/
theorem get_input_key_digit_cases (l : get_input_locals) (c : Nat) (hc : is_digit c) :
    get_input_key l c = .next_key l ∨
    get_input_key l c = .next_key
      { ret := { input_number := wrap_long (wrap_long (l.ret.input_number * 10) + ((c : Int) - 48)),
                 oper := l.ret.oper ||| calc_oper.push },
        reading_decimal := l.reading_decimal,
        decimal_place_length :=
          if l.reading_decimal then l.decimal_place_length + 1 else l.decimal_place_length,
        input_length := l.input_length + 1,
        out := l.out ++ [.putchar c] } := by
  by_cases h : l.reading_decimal = true ∧ 3 ≤ l.decimal_place_length
  · exact Or.inl (get_input_key_digit_full l c hc h.1 h.2)
  · refine Or.inr (get_input_key_digit l c hc ?_)
    intro hrd
    by_contra hlt
    exact h ⟨hrd, by omega⟩

/-- The key `.` enters decimal mode; it is echoed and counted the first time. -/
theorem get_input_key_point (l : get_input_locals) :
    get_input_key l 46 = .next_key
      { l with
        reading_decimal := true,
        input_length := if !l.reading_decimal then l.input_length + 1 else l.input_length,
        out := if !l.reading_decimal then l.out ++ [.putchar 46] else l.out } := by
  simp [get_input_key]

/-- The key DEL. -/
theorem get_input_key_delete (l : get_input_locals) :
    get_input_key l 127 = .next_key
      { ret := { l.ret with input_number := Int.tdiv l.ret.input_number 10 },
        reading_decimal :=
          if l.reading_decimal then
            (if l.decimal_place_length > 0 then l.reading_decimal else false)
          else l.reading_decimal,
        decimal_place_length :=
          if l.reading_decimal then
            (if l.decimal_place_length > 0 then l.decimal_place_length - 1
             else l.decimal_place_length)
          else l.decimal_place_length,
        input_length := l.input_length - 1,
        out := if l.input_length > 0 then l.out ++ [.erase] else l.out } := by
  simp [get_input_key]

/-- A key that ends the event changes the tag only. -/
theorem get_input_key_terminator (l : get_input_locals) (c : Nat) (hc : is_terminator c) :
    ∃ o, get_input_key l c = .commit { l with ret := { l.ret with oper := o } } := by
  unfold is_terminator at hc
  refine ⟨(get_input_key l c).locals.ret.oper, ?_⟩
  rcases hc with h | h | h | h | h | h | h | h <;> subst h <;>
    simp [get_input_key, key_result.locals]

/-- Every other key is ignored. -/
theorem get_input_key_other (l : get_input_locals) (c : Nat) (h1 : ¬ is_digit c) (h2 : c ≠ 46)
    (h3 : c ≠ 95) (h4 : c ≠ 127) (h5 : ¬ is_terminator c) : get_input_key l c = .next_key l := by
  unfold is_digit at h1
  unfold is_terminator at h5
  simp only [not_or] at h5
  obtain ⟨t1, t2, t3, t4, t5, t6, t7, t8⟩ := h5
  unfold get_input_key
  rw [if_neg h1, if_neg h2, if_neg (by omega), if_neg h3, if_neg t3, if_neg t4, if_neg t5,
    if_neg t6, if_neg t7, if_neg t8, if_neg h4]

/-- The key `_` negates the number, is echoed and does not leave the loop. -/
theorem get_input_key_negate (l : get_input_locals) :
    get_input_key l 95 = .next_key
      { l with
        ret := { l.ret with input_number := wrap_long (-l.ret.input_number) },
        input_length := l.input_length + 1,
        out := l.out ++ [.putchar 95] } := by
  simp [get_input_key]

/-- Every pass of the loop of `get_input` leaves a number that is a `long`. -/
theorem get_input_key_fits (l : get_input_locals) (c : Nat)
    (h : fits_long l.ret.input_number) : fits_long (get_input_key l c).locals.ret.input_number := by
  rcases key_cases c with hc | hc | hc | hc | hc | ⟨h1, h2, h3, h4, h5⟩
  · rcases get_input_key_digit_cases l c hc with e | e <;> rw [e]
    · exact h
    · exact fits_long_wrap_long _
  · rw [hc, get_input_key_point]; exact h
  · rw [hc, get_input_key_negate]; exact fits_long_wrap_long _
  · rw [hc, get_input_key_delete]; exact fits_long_tdiv_ten h
  · obtain ⟨o, e⟩ := get_input_key_terminator l c hc
    rw [e]; exact h
  · rw [get_input_key_other l c h1 h2 h3 h4 h5]; exact h

theorem feed_fits (ks : List Nat) (l : get_input_locals) (h : fits_long l.ret.input_number) :
    fits_long (feed l ks).ret.input_number := by
  induction ks generalizing l with
  | nil => exact h
  | cons c ks ih =>
    rw [feed_cons]
    exact ih _ (get_input_key_fits l c h)

theorem add_trailing_zeros_fits (n : Nat) (x : Int) (h : fits_long x) :
    fits_long (add_trailing_zeros n x) := by
  induction n generalizing x with
  | zero => exact h
  | succ n ih => exact ih _ (fits_long_wrap_long _)

/-- Appending the trailing zeros commutes with the negation of a `long`. -/
theorem add_trailing_zeros_neg (n : Nat) (x : Int) :
    add_trailing_zeros n (wrap_long (-x)) = wrap_long (-(add_trailing_zeros n x)) := by
  induction n generalizing x with
  | zero => rfl
  | succ n ih =>
    have e : wrap_long (wrap_long (-x) * 10) = wrap_long (-(wrap_long (x * 10))) := by
      unfold wrap_long
      omega
    rw [add_trailing_zeros, add_trailing_zeros, e, ih]

theorem wrap_long_neg_neg {x : Int} (h : fits_long x) : wrap_long (-(wrap_long (-x))) = x := by
  unfold fits_long at h
  unfold wrap_long
  omega

theorem get_input_loop_negate (l : get_input_locals) (ks : List Nat) :
    get_input_loop l (95 :: ks) =
      get_input_loop
        { l with
          ret := { l.ret with input_number := wrap_long (-l.ret.input_number) },
          input_length := l.input_length + 1,
          out := l.out ++ [.putchar 95] } ks := by
  simp only [get_input_loop, get_input_key_negate]

/-- Digits and the point never lower the echo count. -/
theorem get_input_key_length_le (l : get_input_locals) (c : Nat) (hc : is_digit c ∨ c = 46) :
    l.input_length ≤ (get_input_key l c).locals.input_length := by
  rcases hc with hc | hc
  · rcases get_input_key_digit_cases l c hc with e | e <;> rw [e] <;>
      simp only [key_result.locals] <;> omega
  · rw [hc, get_input_key_point]
    simp only [key_result.locals]
    split_ifs <;> omega

theorem feed_length_le (ks : List Nat) (l : get_input_locals)
    (hks : ∀ c ∈ ks, is_digit c ∨ c = 46) : l.input_length ≤ (feed l ks).input_length := by
  induction ks generalizing l with
  | nil => exact le_rfl
  | cons c ks ih =>
    rw [feed_cons]
    exact le_trans (get_input_key_length_le l c (hks c (List.mem_cons_self _ _)))
      (ih _ (fun d hd => hks d (List.mem_cons_of_mem _ hd)))

/-- After the keys of a literal that is not empty something has been echoed. -/
theorem feed_literal_length_pos (I : List Nat) (frac : Option (List Nat))
    (hI : ∀ c ∈ I, is_digit c) (hF : ∀ F, frac = some F → ∀ c ∈ F, is_digit c)
    (hne : I ≠ [] ∨ frac ≠ Option.none) :
    0 < (feed get_input_init (literal_keys I frac)).input_length := by
  have hall : ∀ c ∈ literal_keys I frac, is_digit c ∨ c = 46 := by
    intro c hc
    unfold literal_keys at hc
    rcases List.mem_append.mp hc with h | h
    · exact Or.inl (hI c h)
    · cases frac with
      | none => simp at h
      | some F =>
        rcases List.mem_cons.mp h with h | h
        · exact Or.inr h
        · exact Or.inl (hF F rfl c h)
  cases hk : literal_keys I frac with
  | nil =>
    exfalso
    unfold literal_keys at hk
    rcases hne with h | h
    · exact h (List.append_eq_nil.mp hk).1
    · cases frac with
      | none => exact h rfl
      | some F => simp at hk
  | cons c ks =>
    rw [hk] at hall
    have h1 : (get_input_key get_input_init c).locals.input_length = 1 := by
      rcases hall c (List.mem_cons_self _ _) with hc | hc
      · rw [get_input_key_digit get_input_init c hc (by intro h; cases h)]
        rfl
      · rw [hc, get_input_key_point]
        rfl
    have h2 := feed_length_le ks (get_input_key get_input_init c).locals
      (fun d hd => hall d (List.mem_cons_of_mem _ hd))
    rw [feed_cons]
    omega

/-- Two runs of the loop of `get_input` that agree on the number, the decimal
mode and the count of fractional digits still agree on them after the next
key, and leave the loop on the same keys. -/
theorem get_input_key_agree (l m : get_input_locals) (c : Nat)
    (hn : l.ret.input_number = m.ret.input_number)
    (hr : l.reading_decimal = m.reading_decimal)
    (hd : l.decimal_place_length = m.decimal_place_length) :
    ∃ l1 m1, l1.ret.input_number = m1.ret.input_number ∧
      l1.reading_decimal = m1.reading_decimal ∧
      l1.decimal_place_length = m1.decimal_place_length ∧
      ((get_input_key l c = .next_key l1 ∧ get_input_key m c = .next_key m1) ∨
        (get_input_key l c = .commit l1 ∧ get_input_key m c = .commit m1)) := by
  rcases key_cases c with hc | hc | hc | hc | hc | ⟨h1, h2, h3, h4, h5⟩
  · by_cases h : l.reading_decimal = true ∧ 3 ≤ l.decimal_place_length
    · exact ⟨l, m, hn, hr, hd, Or.inl ⟨get_input_key_digit_full l c hc h.1 h.2,
        get_input_key_digit_full m c hc (hr ▸ h.1) (hd ▸ h.2)⟩⟩
    · have hl : l.reading_decimal = true → l.decimal_place_length < 3 := by
        intro hrd
        by_contra hlt
        exact h ⟨hrd, by omega⟩
      have hm : m.reading_decimal = true → m.decimal_place_length < 3 := by
        rw [← hr, ← hd]; exact hl
      refine ⟨_, _, ?_, ?_, ?_, Or.inl ⟨get_input_key_digit l c hc hl,
        get_input_key_digit m c hc hm⟩⟩
      · simp only [hn]
      · exact hr
      · simp only [hr, hd]
  · subst hc
    exact ⟨_, _, by exact hn, by rfl, by exact hd,
      Or.inl ⟨get_input_key_point l, get_input_key_point m⟩⟩
  · subst hc
    refine ⟨_, _, ?_, ?_, ?_, Or.inl ⟨get_input_key_negate l, get_input_key_negate m⟩⟩
    · simp only [hn]
    · exact hr
    · exact hd
  · subst hc
    refine ⟨_, _, ?_, ?_, ?_, Or.inl ⟨get_input_key_delete l, get_input_key_delete m⟩⟩
    · simp only [hn]
    · simp only [hr, hd]
    · simp only [hr, hd]
  · obtain ⟨o, e⟩ := get_input_key_terminator l c hc
    obtain ⟨o1, e1⟩ := get_input_key_terminator m c hc
    exact ⟨_, _, by exact hn, by exact hr, by exact hd, Or.inr ⟨e, e1⟩⟩
  · exact ⟨l, m, hn, hr, hd, Or.inl ⟨get_input_key_other l c h1 h2 h3 h4 h5,
      get_input_key_other m c h1 h2 h3 h4 h5⟩⟩

/-- Such runs return the same number and leave the same keys unread. -/
theorem get_input_loop_agree (ks : List Nat) (l m : get_input_locals)
    (hn : l.ret.input_number = m.ret.input_number)
    (hr : l.reading_decimal = m.reading_decimal)
    (hd : l.decimal_place_length = m.decimal_place_length) :
    (get_input_loop l ks).map (fun r => ((commit_input r.1 r.2.1).1.input_number, r.2.2)) =
      (get_input_loop m ks).map (fun r => ((commit_input r.1 r.2.1).1.input_number, r.2.2)) := by
  induction ks generalizing l m with
  | nil => rfl
  | cons c ks ih =>
    obtain ⟨l1, m1, hn1, hr1, hd1, h | h⟩ := get_input_key_agree l m c hn hr hd
    · simp only [get_input_loop, h.1, h.2]
      exact ih l1 m1 hn1 hr1 hd1
    · simp only [get_input_loop, h.1, h.2, Option.map_some', commit_input, hn1, hd1]

theorem get_input_number_rest (ks : List Nat) :
    (get_input ks).map (fun r => (r.event.input_number, r.rest)) =
      (get_input_loop get_input_init ks).map
        (fun r => ((commit_input r.1 r.2.1).1.input_number, r.2.2)) := by
  unfold get_input
  cases get_input_loop get_input_init ks with
  | none => rfl
  | some r => rfl

/-- C9: for a literal typed as digits with an optional fractional part, one
`_` typed just before the committing space or newline makes `get_input` return
the same tag and the negated number (the `long` negation, which is the
mathematical one unless the number is `LONG_MIN`); two `_` in a row after any
keys that do not end the event decode to the same number as none there; and
`_` never ends the event. -/
theorem negation_key (I : List Nat) (frac : Option (List Nat)) (t : Nat) (rest : List Nat)
    (hI : ∀ c ∈ I, is_digit c) (hF : ∀ F, frac = some F → ∀ c ∈ F, is_digit c)
    (hne : I ≠ [] ∨ frac ≠ Option.none) (ht : t = 32 ∨ t = 10) :
    (∃ e out out1, get_input (literal_keys I frac ++ t :: rest) = some ⟨e, out, rest⟩ ∧
      get_input (literal_keys I frac ++ 95 :: t :: rest) =
        some ⟨⟨wrap_long (-e.input_number), e.oper⟩, out1, rest⟩ ∧
      (e.input_number ≠ -2 ^ 63 → wrap_long (-e.input_number) = -e.input_number)) ∧
    (∀ K1 K2 : List Nat, (∀ c ∈ K1, ¬ is_terminator c) →
      (get_input (K1 ++ 95 :: 95 :: K2)).map (fun r => (r.event.input_number, r.rest)) =
        (get_input (K1 ++ K2)).map (fun r => (r.event.input_number, r.rest))) ∧
    (∀ l : get_input_locals, ∃ l1, get_input_key l 95 = .next_key l1) ∧
    (∀ K : List Nat, (∀ c ∈ K, ¬ is_terminator c) → get_input (K ++ [95]) = Option.none) := by
  have hinit : fits_long get_input_init.ret.input_number := by decide
  refine ⟨?_, ?_, ?_, ?_⟩
  · have hK := literal_keys_not_terminator I frac hI hF
    have hpos := feed_literal_length_pos I frac hI hF hne
    have hfit := feed_fits (literal_keys I frac) get_input_init hinit
    obtain ⟨l, hl⟩ : ∃ l, feed get_input_init (literal_keys I frac) = l := ⟨_, rfl⟩
    rw [hl] at hpos hfit
    have h1 : get_input (literal_keys I frac ++ t :: rest) =
        some ⟨⟨add_trailing_zeros (3 - l.decimal_place_length).toNat l.ret.input_number,
            l.ret.oper ||| calc_oper.push⟩,
          (commit_input { l with ret := { l.ret with oper := l.ret.oper ||| calc_oper.push } } t).2,
          rest⟩ := by
      unfold get_input
      rw [get_input_loop_append _ _ _ hK, hl, get_input_loop_commit_push _ _ _ ht]
      simp only [Option.some.injEq, get_input_result.mk.injEq, and_true]
      rw [commit_input_of_length _ _ (by simp only; omega)]
    have h2 : get_input (literal_keys I frac ++ 95 :: t :: rest) =
        some ⟨⟨wrap_long (-(add_trailing_zeros (3 - l.decimal_place_length).toNat
              l.ret.input_number)), l.ret.oper ||| calc_oper.push⟩,
          (commit_input
            { l with
              ret := { input_number := wrap_long (-l.ret.input_number),
                       oper := l.ret.oper ||| calc_oper.push },
              input_length := l.input_length + 1,
              out := l.out ++ [.putchar 95] } t).2,
          rest⟩ := by
      unfold get_input
      rw [get_input_loop_append _ _ _ hK, hl, get_input_loop_negate,
        get_input_loop_commit_push _ _ _ ht]
      simp only [Option.some.injEq, get_input_result.mk.injEq, and_true]
      rw [commit_input_of_length _ _ (by simp only; omega)]
      simp only [add_trailing_zeros_neg]
    refine ⟨_, _, _, h1, h2, ?_⟩
    intro hmin
    have hf := add_trailing_zeros_fits (3 - l.decimal_place_length).toNat _ hfit
    have hmin1 : add_trailing_zeros (3 - l.decimal_place_length).toNat l.ret.input_number ≠
        -2 ^ 63 := hmin
    apply wrap_long_of_fits
    unfold fits_long at hf ⊢
    simp only
    omega
  · intro K1 K2 hK1
    rw [get_input_number_rest, get_input_number_rest, get_input_loop_append _ _ _ hK1,
      get_input_loop_append _ _ _ hK1, get_input_loop_negate, get_input_loop_negate]
    apply get_input_loop_agree
    · exact wrap_long_neg_neg (feed_fits K1 get_input_init hinit)
    · rfl
    · rfl
  · intro l
    exact ⟨_, get_input_key_negate l⟩
  · intro K hK
    unfold get_input
    rw [get_input_loop_append _ _ _ hK, get_input_loop_negate, get_input_loop]

/-- C9 at the literal `12.5`: `12.5_` and a space give -12500, `1__2.5` decodes
like `12.5`, and after `12_` the decoder still reads. -/
theorem negation_key_witness :
    (get_input (literal_keys [49, 50] (some [53]) ++ 32 :: [])).map (fun r => r.event) =
      some ⟨12500, calc_oper.push⟩ ∧
    (get_input (literal_keys [49, 50] (some [53]) ++ 95 :: 32 :: [])).map (fun r => r.event) =
      some ⟨-12500, calc_oper.push⟩ ∧
    (get_input ([49] ++ 95 :: 95 :: [50, 46, 53, 32])).map
        (fun r => (r.event.input_number, r.rest)) =
      (get_input ([49] ++ [50, 46, 53, 32])).map (fun r => (r.event.input_number, r.rest)) ∧
    (∃ l1, get_input_key get_input_init 95 = .next_key l1) ∧
    get_input ([49, 50] ++ [95]) = Option.none := by
  have h := negation_key [49, 50] (some [53]) 32 [] (by decide) (by intro F h; cases h; decide)
    (Or.inl (by decide)) (Or.inl rfl)
  obtain ⟨⟨e, out, out1, h1, h2, h3⟩, h4, h5, h6⟩ := h
  have hd : (get_input (literal_keys [49, 50] (some [53]) ++ 32 :: [])).map (fun r => r.event) =
      some ⟨12500, calc_oper.push⟩ := by decide
  have he : e = ⟨12500, calc_oper.push⟩ := by
    rw [h1] at hd
    exact Option.some.inj hd
  subst he
  refine ⟨hd, ?_, h4 [49] [50, 46, 53, 32] (by decide), h5 get_input_init,
    h6 [49, 50] (by decide)⟩
  rw [h2, h3 (by decide)]
  rfl

/-! ## The index bound and the error flag -/

theorem rpn_push_in_bounds (st : rpn_state) (v : Int) (h : index_in_bounds st) :
    index_in_bounds (rpn_push st v) := by
  unfold index_in_bounds STACK_SIZE at *
  unfold rpn_push
  by_cases hfull : st.rpn_stk_index = STACK_SIZE
  · rw [if_pos hfull]; exact h
  · rw [if_neg hfull]
    unfold STACK_SIZE at hfull
    simp only
    omega

theorem rpn_pop_in_bounds (st : rpn_state) (h : index_in_bounds st) :
    index_in_bounds (rpn_pop st).2 := by
  unfold index_in_bounds STACK_SIZE at *
  unfold rpn_pop
  by_cases hempty : st.rpn_stk_index = 0
  · rw [if_pos hempty]; exact h
  · rw [if_neg hempty]
    simp only
    omega

theorem rpn_reset_in_bounds (st : rpn_state) (v : Int) : index_in_bounds (rpn_reset st v) := by
  unfold index_in_bounds STACK_SIZE rpn_reset
  by_cases hv : v = 0
  · simp [hv]
  · simp [hv]

theorem rpn_apply_in_bounds (st st3 : rpn_state) (op : Nat) (h : index_in_bounds st)
    (happ : rpn_apply st op = some st3) : index_in_bounds st3 := by
  have hpp : ∀ v, index_in_bounds (rpn_push (rpn_pop st).2 v) :=
    fun v => rpn_push_in_bounds _ v (rpn_pop_in_bounds st h)
  unfold rpn_apply at happ
  split_ifs at happ <;> first
    | (cases happ; exact hpp _)
    | (cases happ; exact h)

theorem rpn_cycle_end_in_bounds (st : rpn_state) (h : index_in_bounds st) :
    index_in_bounds (rpn_cycle_end st) ∧ (rpn_cycle_end st).reset_status = false := by
  unfold rpn_cycle_end
  cases hflag : st.reset_status with
  | false => simp only [Bool.false_eq_true, if_false]; exact ⟨h, hflag⟩
  | true => simp only [if_true]; exact ⟨rpn_reset_in_bounds st st.ans, trivial⟩

/-- A pass of the loop of `rpn_proc` that continues keeps the index within
bounds and ends with the error flag clear. -/
theorem rpn_cycle_in_bounds (st st1 : rpn_state) (input : input_event)
    (h : index_in_bounds st) (hflag : st.reset_status = false)
    (hc : rpn_cycle st input = .continued st1) :
    index_in_bounds st1 ∧ st1.reset_status = false := by
  unfold rpn_cycle at hc
  by_cases hq : input.oper = calc_oper.quit
  · rw [if_pos hq] at hc; cases hc
  · rw [if_neg hq] at hc
    by_cases ha : input.oper = calc_oper.ac
    · rw [if_pos ha] at hc
      cases hc
      exact ⟨rpn_reset_in_bounds st 0, hflag⟩
    · rw [if_neg ha] at hc
      have h1 : index_in_bounds
          (if input.oper &&& calc_oper.not_push ≠ 0 then
            { (rpn_pop st).2 with ans := (rpn_pop st).1 } else st) := by
        split_ifs
        · exact rpn_pop_in_bounds st h
        · exact h
      have h2 : index_in_bounds
          (if input.oper &&& calc_oper.push ≠ 0 then
            rpn_push (if input.oper &&& calc_oper.not_push ≠ 0 then
              { (rpn_pop st).2 with ans := (rpn_pop st).1 } else st) input.input_number
           else (if input.oper &&& calc_oper.not_push ≠ 0 then
              { (rpn_pop st).2 with ans := (rpn_pop st).1 } else st)) := by
        split_ifs <;> first
          | exact rpn_push_in_bounds _ _ (rpn_pop_in_bounds st h)
          | exact rpn_push_in_bounds _ _ h
          | exact rpn_pop_in_bounds st h
          | exact h
      simp only at hc
      split at hc
      · cases hc
      · rename_i st3 happ
        cases hc
        exact rpn_cycle_end_in_bounds st3 (rpn_apply_in_bounds _ st3 _ h2 happ)

theorem reachable_in_bounds (st : rpn_state) (h : reachable st) :
    index_in_bounds st ∧ st.reset_status = false := by
  induction h with
  | initial => exact ⟨by decide, rfl⟩
  | output st o _ ih => exact ih
  | cycle st input st1 _ hc ih => exact rpn_cycle_in_bounds st st1 input ih.1 ih.2 hc

/-- C11: in every state reachable from the initial one by passes of the loop
of `rpn_proc` on arbitrary events the stack index lies between 0 and 256 and
the error flag is clear; and `rpn_push`, `rpn_pop` and `rpn_reset` each keep
the index between 0 and 256. -/
theorem index_bound_invariant (st : rpn_state) (h : reachable st) (st2 : rpn_state)
    (hb : 0 ≤ st2.rpn_stk_index ∧ st2.rpn_stk_index ≤ 256) (v : Int) :
    (0 ≤ st.rpn_stk_index ∧ st.rpn_stk_index ≤ 256 ∧ st.reset_status = false) ∧
    (0 ≤ (rpn_push st2 v).rpn_stk_index ∧ (rpn_push st2 v).rpn_stk_index ≤ 256) ∧
    (0 ≤ (rpn_pop st2).2.rpn_stk_index ∧ (rpn_pop st2).2.rpn_stk_index ≤ 256) ∧
    (0 ≤ (rpn_reset st2 v).rpn_stk_index ∧ (rpn_reset st2 v).rpn_stk_index ≤ 256) := by
  have hr := reachable_in_bounds st h
  exact ⟨⟨hr.1.1, hr.1.2, hr.2⟩, rpn_push_in_bounds st2 v hb, rpn_pop_in_bounds st2 hb,
    rpn_reset_in_bounds st2 v⟩

/-- C11 at the state after the literal 5.000 has been pushed, and for the
three stack functions at a full stack. -/
theorem index_bound_invariant_witness :
    (0 ≤ (rpn_cycle_end (rpn_push rpn_initial 5000)).rpn_stk_index ∧
      (rpn_cycle_end (rpn_push rpn_initial 5000)).rpn_stk_index ≤ 256 ∧
      (rpn_cycle_end (rpn_push rpn_initial 5000)).reset_status = false) ∧
    (0 ≤ (rpn_push { rpn_initial with rpn_stk_index := 256 } 7).rpn_stk_index ∧
      (rpn_push { rpn_initial with rpn_stk_index := 256 } 7).rpn_stk_index ≤ 256) ∧
    (0 ≤ (rpn_pop { rpn_initial with rpn_stk_index := 256 }).2.rpn_stk_index ∧
      (rpn_pop { rpn_initial with rpn_stk_index := 256 }).2.rpn_stk_index ≤ 256) ∧
    (0 ≤ (rpn_reset { rpn_initial with rpn_stk_index := 256 } 7).rpn_stk_index ∧
      (rpn_reset { rpn_initial with rpn_stk_index := 256 } 7).rpn_stk_index ≤ 256) :=
  index_bound_invariant (rpn_cycle_end (rpn_push rpn_initial 5000))
    (reachable.cycle rpn_initial ⟨5000, calc_oper.push⟩ _ reachable.initial rfl)
    { rpn_initial with rpn_stk_index := 256 } (by decide) 7

/-! ## Ignored keys -/

theorem drop_ignored_cons_ignored (c : Nat) (ks : List Nat) (h : is_ignored c) :
    drop_ignored (c :: ks) = drop_ignored ks := by
  simp [drop_ignored, h]

theorem drop_ignored_cons_kept (c : Nat) (ks : List Nat) (h : ¬ is_ignored c) :
    drop_ignored (c :: ks) = c :: drop_ignored ks := by
  simp [drop_ignored, h]

theorem drop_ignored_append (xs ys : List Nat) :
    drop_ignored (xs ++ ys) = drop_ignored xs ++ drop_ignored ys := by
  simp [drop_ignored]

theorem drop_ignored_of_all_ignored (ks : List Nat) (h : ∀ c ∈ ks, is_ignored c) :
    drop_ignored ks = [] := by
  simp only [drop_ignored, List.filter_eq_nil_iff]
  intro c hc
  simp [h c hc]

/-- The loop of `get_input` on the keys without the ignored ones ends with the
same locals on the same key, and leaves the same keys that are not ignored. -/
theorem get_input_loop_drop_ignored (ks : List Nat) (l : get_input_locals) :
    get_input_loop l (drop_ignored ks) =
      (get_input_loop l ks).map (fun r => (r.1, r.2.1, drop_ignored r.2.2)) := by
  induction ks generalizing l with
  | nil => rfl
  | cons c ks ih =>
    by_cases hc : is_ignored c
    · rw [drop_ignored_cons_ignored c ks hc, get_input_loop,
        get_input_key_other l c hc.1 hc.2.1 hc.2.2.1 hc.2.2.2.1 hc.2.2.2.2]
      exact ih l
    · rw [drop_ignored_cons_kept c ks hc, get_input_loop, get_input_loop]
      cases get_input_key l c with
      | next_key l1 => exact ih l1
      | commit l1 => rfl

theorem get_input_drop_ignored (ks : List Nat) :
    (get_input (drop_ignored ks)).map (fun r => (r.event, r.out, r.rest)) =
      (get_input ks).map (fun r => (r.event, r.out, drop_ignored r.rest)) := by
  unfold get_input
  rw [get_input_loop_drop_ignored]
  cases get_input_loop get_input_init ks with
  | none => rfl
  | some r => rfl

/-- C12: keys other than the digits, `.`, `_`, DEL and the keys that end the
event are ignored: two key sequences that differ only by such keys, wherever
they stand, make `get_input` return the same event with the same echo, and
leave unread the same keys apart from ignored ones, so no terminator is
consumed early; inserting a run of ignored keys at any position is such a
difference. -/
theorem ignored_keys_do_not_matter (ks ks1 : List Nat)
    (h : drop_ignored ks1 = drop_ignored ks) :
    (get_input ks1).map (fun r => (r.event, r.out, drop_ignored r.rest)) =
      (get_input ks).map (fun r => (r.event, r.out, drop_ignored r.rest)) ∧
    ∀ xs junk ys : List Nat, (∀ c ∈ junk, is_ignored c) →
      drop_ignored (xs ++ junk ++ ys) = drop_ignored (xs ++ ys) := by
  constructor
  · rw [← get_input_drop_ignored ks1, ← get_input_drop_ignored ks, h]
  · intro xs junk ys hj
    simp only [drop_ignored_append, drop_ignored_of_all_ignored junk hj, List.append_nil]

/-- C12 at the keys `1 x 2 NUL space y 5` against `1 2 space 5`. -/
theorem ignored_keys_do_not_matter_witness :
    (get_input [49, 120, 50, 0, 32, 121, 53]).map
        (fun r => (r.event, r.out, drop_ignored r.rest)) =
      (get_input [49, 50, 32, 53]).map (fun r => (r.event, r.out, drop_ignored r.rest)) ∧
    drop_ignored ([49] ++ [120, 0, 121] ++ [50, 32]) = drop_ignored ([49] ++ [50, 32]) :=
  ⟨(ignored_keys_do_not_matter [49, 50, 32, 53] [49, 120, 50, 0, 32, 121, 53] (by decide)).1,
    (ignored_keys_do_not_matter [49, 50, 32, 53] [49, 120, 50, 0, 32, 121, 53] (by decide)).2
      [49] [120, 0, 121] [50, 32] (by decide)⟩

/-! ## Events that carry an operator -/

/-- A cycle on an event that carries a literal and an operator: pop into
`ans`, push the literal, apply. -/
theorem rpn_cycle_literal_operator (st : rpn_state) (input : input_event) (op : Nat)
    (hop : is_operator op) (hin : input.oper = op ||| calc_oper.push) :
    rpn_cycle st input =
      match rpn_apply
          (rpn_push { (rpn_pop st).2 with ans := (rpn_pop st).1 } input.input_number) op with
      | Option.none =>
        .div_by_zero (rpn_push { (rpn_pop st).2 with ans := (rpn_pop st).1 } input.input_number)
      | some st3 => .continued (rpn_cycle_end st3) := by
  unfold rpn_cycle
  rw [hin]
  rcases hop with h | h | h | h <;> subst h <;> rfl

/-- What `get_input` returns is decided by the keys up to the first one that
ends the event; the keys after it are left unread. -/
theorem get_input_line (pre : List Nat) (t : Nat) (post : List Nat)
    (hpre : ∀ c ∈ pre, ¬ is_terminator c) (ht : is_terminator t) :
    get_input (pre ++ t :: post) =
      (get_input (pre ++ [t])).map (fun r => { r with rest := post }) := by
  obtain ⟨o, e⟩ := get_input_key_terminator (feed get_input_init pre) t ht
  unfold get_input
  rw [get_input_loop_append _ _ _ hpre, get_input_loop_append _ _ _ hpre]
  simp only [get_input_loop, e, Option.map_some']

/-- C13: each of the keys `+ - * /` typed alone is decoded as the number 0
with the operator tag and the push flag clear; a cycle on an event with an
operator tag and no push flag goes from the pop into `ans` straight to the
operator, whatever the number of the event is, so `rpn_push` receives the
result of the operator only; with the push flag set the number is pushed
first, also when it is 0. -/
theorem bare_operator_pushes_no_literal (st : rpn_state) (n : Int) (op : Nat)
    (rest : List Nat) (hop : is_operator op) :
    get_input (43 :: rest) = some ⟨⟨0, calc_oper.plus⟩, [.putchar 43], rest⟩ ∧
    get_input (45 :: rest) = some ⟨⟨0, calc_oper.minus⟩, [.putchar 45], rest⟩ ∧
    get_input (42 :: rest) = some ⟨⟨0, calc_oper.multiply⟩, [.putchar 42], rest⟩ ∧
    get_input (47 :: rest) = some ⟨⟨0, calc_oper.divide⟩, [.putchar 47], rest⟩ ∧
    op &&& calc_oper.push = 0 ∧
    rpn_cycle st ⟨n, op⟩ =
      (match rpn_apply { (rpn_pop st).2 with ans := (rpn_pop st).1 } op with
        | Option.none => .div_by_zero { (rpn_pop st).2 with ans := (rpn_pop st).1 }
        | some st3 => .continued (rpn_cycle_end st3)) ∧
    rpn_cycle st ⟨0, op ||| calc_oper.push⟩ =
      (match rpn_apply (rpn_push { (rpn_pop st).2 with ans := (rpn_pop st).1 } 0) op with
        | Option.none =>
          .div_by_zero (rpn_push { (rpn_pop st).2 with ans := (rpn_pop st).1 } 0)
        | some st3 => .continued (rpn_cycle_end st3)) := by
  have hline : ∀ c, is_terminator c →
      get_input (c :: rest) = (get_input [c]).map (fun r => { r with rest := rest }) :=
    fun c hc => get_input_line [] c rest (by simp) hc
  refine ⟨?_, ?_, ?_, ?_, ?_, rpn_cycle_bare_operator st ⟨n, op⟩ hop,
    rpn_cycle_literal_operator st ⟨0, op ||| calc_oper.push⟩ op hop rfl⟩
  · rw [hline 43 (by decide),
      show get_input [43] = some ⟨⟨0, calc_oper.plus⟩, [.putchar 43], []⟩ by decide]
    rfl
  · rw [hline 45 (by decide),
      show get_input [45] = some ⟨⟨0, calc_oper.minus⟩, [.putchar 45], []⟩ by decide]
    rfl
  · rw [hline 42 (by decide),
      show get_input [42] = some ⟨⟨0, calc_oper.multiply⟩, [.putchar 42], []⟩ by decide]
    rfl
  · rw [hline 47 (by decide),
      show get_input [47] = some ⟨⟨0, calc_oper.divide⟩, [.putchar 47], []⟩ by decide]
    rfl
  · rcases hop with h | h | h | h <;> subst h <;> decide

/-- C13 at the stack 2.000, 3.000: the event `+` with the number 777 and no
push flag leaves `[5000]`, the same event with the push flag and the number 0
pushes the 0 and leaves `[2000, 3000]`. -/
theorem bare_operator_pushes_no_literal_witness :
    get_input (43 :: []) = some ⟨⟨0, calc_oper.plus⟩, [.putchar 43], []⟩ ∧
    calc_oper.plus &&& calc_oper.push = 0 ∧
    (∃ st1, rpn_cycle (rpn_push (rpn_push rpn_initial 2000) 3000) ⟨777, calc_oper.plus⟩ =
        .continued st1 ∧ stack_contents st1 = [5000]) ∧
    (∃ st1, rpn_cycle (rpn_push (rpn_push rpn_initial 2000) 3000)
        ⟨0, calc_oper.plus ||| calc_oper.push⟩ = .continued st1 ∧
      stack_contents st1 = [2000, 3000]) :=
  have h := bare_operator_pushes_no_literal (rpn_push (rpn_push rpn_initial 2000) 3000) 777
    calc_oper.plus [] (Or.inl rfl)
  ⟨h.1, h.2.2.2.2.1, ⟨_, h.2.2.2.2.2.1, by decide⟩, ⟨_, h.2.2.2.2.2.2, by decide⟩⟩

/-- C14: the keys `3000000*` decode to the literal 3000000000 with the tag
`multiply` and the push flag; on the stack `[1]` (0.001) the cycle sets
`ans = 1` and pushes the literal, but the `int` cell keeps -1294967296 of it,
so the second operand popped is -1294967296 and the stack is left as
`[-1294967]`, where `(1 * 3000000000) / 1000 = 3000000` fits a cell.  With
`3000000+` on `[1000]` the stack is left as `[-1294966296]`, not
`[1000 + 3000000000]`. -/
theorem literal_operator_truncates_literal :
    (get_input [51, 48, 48, 48, 48, 48, 48, 42]).map (fun r => r.event) =
      some ⟨3000000000, calc_oper.multiply ||| calc_oper.push⟩ ∧
    fits_long 3000000000 ∧
    fixed_point_result calc_oper.multiply 1 3000000000 = 3000000 ∧
    fits_int (fixed_point_result calc_oper.multiply 1 3000000000) ∧
    (∃ st1, rpn_cycle (rpn_push rpn_initial 1)
        ⟨3000000000, calc_oper.multiply ||| calc_oper.push⟩ = .continued st1 ∧
      st1.ans = 1 ∧ stack_contents st1 = [-1294967] ∧ st1.reset_status = false) ∧
    (∃ st, rpn_proc rpn_initial
        [48, 46, 48, 48, 49, 32, 51, 48, 48, 48, 48, 48, 48, 42] = .waiting st ∧
      stack_contents st = [-1294967]) ∧
    (get_input [51, 48, 48, 48, 48, 48, 48, 43]).map (fun r => r.event) =
      some ⟨3000000000, calc_oper.plus ||| calc_oper.push⟩ ∧
    (∃ st1, rpn_cycle (rpn_push rpn_initial 1000)
        ⟨3000000000, calc_oper.plus ||| calc_oper.push⟩ = .continued st1 ∧
      stack_contents st1 = [-1294966296] ∧
      stack_contents st1 ≠ [] ++ [fixed_point_result calc_oper.plus 1000 3000000000]) :=
  ⟨by decide, by decide, by decide, by decide, ⟨_, rfl, by decide, by decide, by decide⟩,
    ⟨_, rfl, by decide⟩, by decide, ⟨_, rfl, by decide, by decide⟩⟩

/-- A cycle on an event that carries a literal `b` and an operator tag, on a
stack `s ++ [x]` with the error flag clear, when `b` and the result `r` fit an
`int` stack cell: it sets `ans = x`, pushes `b`, pops it as the second operand
and leaves `s ++ [r]`, with `r = x + b`, `x - b`, `(x * b) / 1000` or, for
non-zero `b`, `(x * 1000) / b`; the stack keeps its length and no overflow is
reported, also when the stack was full. -/
theorem literal_operator_result (st : rpn_state) (s : List Int) (x : Int)
    (input : input_event) (op : Nat) (hs : stack_contents st = s ++ [x])
    (hidx : st.rpn_stk_index ≤ STACK_SIZE) (hflag : st.reset_status = false)
    (hx : fits_int x) (hb : fits_int input.input_number) (hop : is_operator op)
    (hin : input.oper = op ||| calc_oper.push)
    (hdiv : op = calc_oper.divide → input.input_number ≠ 0)
    (hr : fits_int (fixed_point_result op x input.input_number)) :
    ∃ st1, rpn_cycle st input = .continued st1 ∧ st1.ans = x ∧
      stack_contents st1 = s ++ [fixed_point_result op x input.input_number] ∧
      (stack_contents st1).length = (stack_contents st).length ∧
      st1.reset_status = false ∧
      st1.out = st.out ++ [.display (fixed_point_result op x input.input_number)] := by
  obtain ⟨hpop, hc⟩ := rpn_pop_of_contents hs
  have hi := index_of_contents_concat hs
  have hlen : s.length < 256 := by
    unfold STACK_SIZE at hidx
    omega
  have hc1 : stack_contents
      ({ ({ st with rpn_stk_index := st.rpn_stk_index - 1 } : rpn_state) with ans := x }) = s := hc
  have h0 : 0 ≤ ({ ({ st with rpn_stk_index := st.rpn_stk_index - 1 } : rpn_state) with
      ans := x }).rpn_stk_index := by
    simp only; omega
  obtain ⟨hp, hc2⟩ := rpn_push_of_contents input.input_number h0 hc1 hlen
  rw [wrap_int_of_fits hb] at hc2
  have hans2 : (rpn_push ({ ({ st with rpn_stk_index := st.rpn_stk_index - 1 } : rpn_state) with
      ans := x }) input.input_number).ans = x := by rw [hp]
  have hflag2 : (rpn_push ({ ({ st with rpn_stk_index := st.rpn_stk_index - 1 } : rpn_state) with
      ans := x }) input.input_number).reset_status = false := by rw [hp]; exact hflag
  have hout2 : (rpn_push ({ ({ st with rpn_stk_index := st.rpn_stk_index - 1 } : rpn_state) with
      ans := x }) input.input_number).out = st.out := by rw [hp]
  obtain ⟨st3, h3, hc3, hans3, hflag3, hout3⟩ :=
    rpn_apply_of_contents op hop hc2 hlen hb (by rw [hans2]; exact hx) hdiv
  rw [hans2, wrap_int_of_fits hr] at hc3
  have hflag3a : st3.reset_status = false := by rw [hflag3]; exact hflag2
  refine ⟨rpn_cycle_end st3, ?_, ?_, ?_, ?_, ?_, ?_⟩
  · rw [rpn_cycle_literal_operator st input op hop hin, hpop]
    simp only [h3]
  · rw [rpn_cycle_end_of_clear hflag3a, ← hans2]; exact hans3
  · rw [rpn_cycle_end_of_clear hflag3a]; exact hc3
  · rw [rpn_cycle_end_of_clear hflag3a]
    have e1 : stack_contents { st3 with out := st3.out ++ [.display (rpn_peek st3)] } =
        stack_contents st3 := rfl
    rw [e1, hc3, hs]
    simp
  · rw [rpn_cycle_end_of_clear hflag3a]; exact hflag3a
  · rw [rpn_cycle_end_of_clear hflag3a]
    simp only [rpn_peek_of_contents hc3, hout3, hout2]

/-- The stack `[6000]` and the event of the keys `2/`: the stack becomes
`[3000]`. -/
theorem literal_operator_result_witness :
    ∃ st1, rpn_cycle (rpn_push rpn_initial 6000) ⟨2000, calc_oper.divide ||| calc_oper.push⟩ =
        .continued st1 ∧ st1.ans = 6000 ∧ stack_contents st1 = [3000] ∧
      (stack_contents st1).length = 1 ∧ st1.reset_status = false ∧
      st1.out = [.display 3000] :=
  literal_operator_result (rpn_push rpn_initial 6000) [] 6000
    ⟨2000, calc_oper.divide ||| calc_oper.push⟩ calc_oper.divide (by decide) (by decide)
    (by decide) (by decide) (by decide) (by decide) rfl (by decide) (by decide)

/-! ## Operators on the empty stack -/

theorem wrap_int_one : wrap_int 1 = 1 := by decide

/-- C16, counterexample: the keys `0/` decode to the literal 0 with the tag
`divide` and the push flag; on the empty stack the cycle takes 1 for the
underflowed pop, pushes the 0, pops it as the divisor and divides by zero: it
does not end with the stack `[1]`. -/
theorem literal_zero_divide_on_empty_stack :
    (get_input [48, 47]).map (fun r => r.event) =
      some ⟨0, calc_oper.divide ||| calc_oper.push⟩ ∧
    ∃ st1, rpn_cycle rpn_initial ⟨0, calc_oper.divide ||| calc_oper.push⟩ = .div_by_zero st1 ∧
      st1.ans = 1 ∧ stack_contents st1 = [0] ∧ st1.reset_status = true :=
  ⟨by decide, _, rfl, by decide, by decide, by decide⟩

/-- The `switch` of `rpn_proc` on the empty stack: the pop underflows, the
operator is applied to `ans` and 1, and the result is pushed. -/
theorem rpn_apply_of_empty (st : rpn_state) (op : Nat) (hidx : st.rpn_stk_index = 0)
    (hop : is_operator op) :
    ∃ st3, rpn_apply st op = some st3 ∧ st3.reset_status = true ∧ st3.ans = st.ans ∧
      st3.out = st.out ++ [.stack_underflow] := by
  have h : (rpn_apply st op).map (fun s => (s.reset_status, s.ans, s.out)) =
      some (true, st.ans, st.out ++ [.stack_underflow]) := by
    rcases hop with h | h | h | h <;> subst h <;>
      simp [rpn_apply, rpn_pop, rpn_push, hidx, STACK_SIZE, calc_oper.plus, calc_oper.minus,
        calc_oper.multiply, calc_oper.divide]
  obtain ⟨st3, h3, he⟩ := Option.map_eq_some'.mp h
  simp only [Prod.mk.injEq] at he
  exact ⟨st3, h3, he.1, he.2.1, he.2.2⟩

/-- The end of a cycle in which a fault was flagged while `ans = 1`. -/
theorem rpn_cycle_end_of_fault_one (st : rpn_state) (hflag : st.reset_status = true)
    (hans : st.ans = 1) :
    (rpn_cycle_end st).ans = 1 ∧ stack_contents (rpn_cycle_end st) = [1] ∧
      (rpn_cycle_end st).reset_status = false ∧
      (rpn_cycle_end st).out = st.out ++ [.display 1] := by
  simp [rpn_cycle_end, rpn_reset, rpn_peek, stack_contents, hflag, hans, List.range_succ,
    wrap_int_one]

/-- C16, amended: on the empty stack a cycle on an event with an operator
tag, with or without a literal, takes 1 for the underflowed first pop
(`ans = 1`), writes the underflow message, and ends with the stack `[1]` and
the error flag cleared, provided that the literal of an event with the tag
`divide` and the push flag is not stored as 0.  A bare `/` divides by the 1
that the second underflowed pop returns. -/
theorem operator_on_empty_stack (st : rpn_state) (input : input_event) (op : Nat)
    (hidx : st.rpn_stk_index = 0) (hop : is_operator op)
    (hin : input.oper = op ∨ input.oper = op ||| calc_oper.push)
    (hdiv : input.oper = calc_oper.divide ||| calc_oper.push →
      wrap_int input.input_number ≠ 0) :
    rpn_pop st = (1, { st with out := st.out ++ [.stack_underflow], reset_status := true }) ∧
    ∃ st1, rpn_cycle st input = .continued st1 ∧ st1.ans = 1 ∧ stack_contents st1 = [1] ∧
      st1.reset_status = false ∧
      st1.out = st.out ++
        (if input.oper = op then [.stack_underflow, .stack_underflow, .display 1]
         else [.stack_underflow, .display 1]) := by
  have hpop := rpn_pop_of_empty hidx
  refine ⟨hpop, ?_⟩
  rcases hin with hin | hin
  · have hop1 : is_operator input.oper := by rw [hin]; exact hop
    obtain ⟨st3, h3, hf3, ha3, ho3⟩ := rpn_apply_of_empty
      ({ ({ st with out := st.out ++ [.stack_underflow], reset_status := true } : rpn_state) with
        ans := 1 }) input.oper hidx hop1
    obtain ⟨e1, e2, e3, e4⟩ := rpn_cycle_end_of_fault_one st3 hf3 ha3
    refine ⟨rpn_cycle_end st3, ?_, e1, e2, e3, ?_⟩
    · rw [rpn_cycle_bare_operator st input hop1, hpop]
      simp only [h3]
    · rw [e4, ho3, if_pos hin]
      simp
  · have hne : input.oper ≠ op := by
      rw [hin]
      rcases hop with h | h | h | h <;> subst h <;> decide
    obtain ⟨st0, hst0⟩ : ∃ st0 : rpn_state, st0 =
        { (rpn_pop st).2 with ans := (rpn_pop st).1 } := ⟨_, rfl⟩
    have hi0 : st0.rpn_stk_index = 0 := by rw [hst0, hpop]; exact hidx
    have ha0 : st0.ans = 1 := by rw [hst0, hpop]
    have hf0 : st0.reset_status = true := by rw [hst0, hpop]
    have ho0 : st0.out = st.out ++ [.stack_underflow] := by rw [hst0, hpop]
    have hs0 : stack_contents st0 = [] := by simp [stack_contents, hi0]
    obtain ⟨hp, hc⟩ := rpn_push_of_contents input.input_number (by omega) hs0 (by simp)
    have hans2 : (rpn_push st0 input.input_number).ans = 1 := by rw [hp]; exact ha0
    have hflag2 : (rpn_push st0 input.input_number).reset_status = true := by rw [hp]; exact hf0
    have hout2 : (rpn_push st0 input.input_number).out = st.out ++ [.stack_underflow] := by
      rw [hp]; exact ho0
    obtain ⟨st3, h3, -, ha3, hf3, ho3⟩ := rpn_apply_of_contents op hop hc (by simp)
      (fits_int_wrap_int _) (by rw [hans2]; decide)
      (fun h => hdiv (by rw [hin, h]))
    obtain ⟨e1, e2, e3, e4⟩ := rpn_cycle_end_of_fault_one st3 (by rw [hf3, hflag2])
      (by rw [ha3, hans2])
    refine ⟨rpn_cycle_end st3, ?_, e1, e2, e3, ?_⟩
    · rw [rpn_cycle_literal_operator st input op hop hin, ← hst0]
      simp only [h3]
    · rw [e4, ho3, hout2, if_neg hne]
      simp

/-- C16, amended, at the initial state: a bare `/`, and the event of `5/`. -/
theorem operator_on_empty_stack_witness :
    (∃ st1, rpn_cycle rpn_initial ⟨0, calc_oper.divide⟩ = .continued st1 ∧ st1.ans = 1 ∧
      stack_contents st1 = [1] ∧ st1.reset_status = false ∧
      st1.out = [.stack_underflow, .stack_underflow, .display 1]) ∧
    (∃ st1, rpn_cycle rpn_initial ⟨5000, calc_oper.divide ||| calc_oper.push⟩ =
        .continued st1 ∧ st1.ans = 1 ∧
      stack_contents st1 = [1] ∧ st1.reset_status = false ∧
      st1.out = [.stack_underflow, .display 1]) :=
  ⟨(operator_on_empty_stack rpn_initial ⟨0, calc_oper.divide⟩ calc_oper.divide rfl
      (by decide) (Or.inl rfl) (by decide)).2,
    (operator_on_empty_stack rpn_initial ⟨5000, calc_oper.divide ||| calc_oper.push⟩
      calc_oper.divide rfl (by decide) (Or.inr rfl) (by decide)).2⟩

/-! ## Evaluations -/

/-- C15: a DEL typed on the empty literal takes the echo count to -1 (only
the erasing is guarded, not the decrement), so after DEL `5` the count is 0
although `5` was echoed, and the committing space turns the tag into `none`:
the event of DEL `5` space has no push flag and the program pushes nothing,
where `5` space alone pushes 5.000. -/
theorem backspace_on_empty_loses_literal :
    (feed get_input_init [127]).input_length = -1 ∧
    (feed get_input_init [127, 53]).input_length = 0 ∧
    (feed get_input_init [127, 53]).out = [.putchar 53] ∧
    (get_input [127, 53, 32]).map (fun r => r.event) = some ⟨5000, calc_oper.none⟩ ∧
    (get_input [127, 53, 10]).map (fun r => r.event) = some ⟨5000, calc_oper.none⟩ ∧
    (get_input [53, 32]).map (fun r => r.event) = some ⟨5000, calc_oper.push⟩ ∧
    (∃ st, rpn_proc rpn_initial [127, 53, 32] = .waiting st ∧ stack_contents st = []) ∧
    (∃ st, rpn_proc rpn_initial [53, 32] = .waiting st ∧ stack_contents st = [5000]) :=
  ⟨by decide, by decide, by decide, by decide, by decide, by decide, ⟨_, rfl, by decide⟩,
    ⟨_, rfl, by decide⟩⟩

/-- C17: the two ways of entering a binary operation differ for `-` and `/`:
`5 3 -` leaves -2.000 and `5 3-` leaves 2.000; with 0 and 2.000 on the stack
a bare `/` divides by zero while `0 2/` leaves 0.  For `+` at the same operands
both ways leave 8.000. -/
theorem entry_ways_differ :
    (∃ st, rpn_cycles rpn_initial
        [⟨5000, calc_oper.push⟩, ⟨3000, calc_oper.push⟩, ⟨0, calc_oper.minus⟩] =
          .continued st ∧ stack_contents st = [-2000]) ∧
    (∃ st, rpn_cycles rpn_initial
        [⟨5000, calc_oper.push⟩, ⟨3000, calc_oper.minus ||| calc_oper.push⟩] =
          .continued st ∧ stack_contents st = [2000]) ∧
    (∃ st, rpn_proc rpn_initial [53, 32, 51, 32, 45] = .waiting st ∧
        stack_contents st = [-2000]) ∧
    (∃ st, rpn_proc rpn_initial [53, 32, 51, 45] = .waiting st ∧
        stack_contents st = [2000]) ∧
    (∃ st, rpn_cycles (rpn_push rpn_initial 7000)
        [⟨0, calc_oper.push⟩, ⟨2000, calc_oper.push⟩, ⟨0, calc_oper.divide⟩] =
          .div_by_zero st) ∧
    (∃ st, rpn_cycles (rpn_push rpn_initial 7000)
        [⟨0, calc_oper.push⟩, ⟨2000, calc_oper.divide ||| calc_oper.push⟩] =
          .continued st ∧ stack_contents st = [7000, 0]) ∧
    (∃ st, rpn_cycles rpn_initial
        [⟨5000, calc_oper.push⟩, ⟨3000, calc_oper.push⟩, ⟨0, calc_oper.plus⟩] =
          .continued st ∧ stack_contents st = [8000]) ∧
    (∃ st, rpn_cycles rpn_initial
        [⟨5000, calc_oper.push⟩, ⟨3000, calc_oper.plus ||| calc_oper.push⟩] =
          .continued st ∧ stack_contents st = [8000]) :=
  ⟨⟨_, rfl, by decide⟩, ⟨_, rfl, by decide⟩, ⟨_, rfl, by decide⟩, ⟨_, rfl, by decide⟩,
    ⟨_, rfl⟩, ⟨_, rfl, by decide⟩, ⟨_, rfl, by decide⟩, ⟨_, rfl, by decide⟩⟩

/-- C18: the stack cells are `int` while the values pushed and popped are
`long`: the literal 3000000000 of the keys `3000000` comes back from the stack
as -1294967296, from `rpn_pop` as from `rpn_peek`, and the product of 2000.000
and 2000.000, which is 4000000000, is stored as -294967296.  A value that fits
an `int` comes back unchanged. -/
theorem push_truncates_to_int :
    (get_input [51, 48, 48, 48, 48, 48, 48, 32]).map (fun r => r.event) =
      some ⟨3000000000, calc_oper.push⟩ ∧
    fits_long 3000000000 ∧
    (rpn_pop (rpn_push rpn_initial 3000000000)).1 = -1294967296 ∧
    rpn_peek (rpn_push rpn_initial 3000000000) = -1294967296 ∧
    (∃ st, rpn_proc rpn_initial [51, 48, 48, 48, 48, 48, 48, 32] = .waiting st ∧
      stack_contents st = [-1294967296]) ∧
    (∃ st, rpn_cycle (rpn_push (rpn_push rpn_initial 2000000) 2000000) ⟨0, calc_oper.multiply⟩ =
        .continued st ∧ stack_contents st = [-294967296]) ∧
    (rpn_pop (rpn_push rpn_initial 2147483647)).1 = 2147483647 ∧
    stack_contents (rpn_pop (rpn_push rpn_initial 2147483647)).2 = [] :=
  ⟨by decide, by decide, by decide, by decide, ⟨_, rfl, by decide⟩, ⟨_, rfl, by decide⟩,
    by decide, by decide⟩

/-- C19: the digits typed after `_` are added to the negated number as they
are: `_5` decodes to 5.000, not -5.000, and `5_3` to -47.000 (-5 * 10 + 3), not
-53.000; only a `_` typed last negates the literal: `5_` gives -5.000 and `53_`
gives -53.000. -/
theorem negation_position_matters :
    (get_input [95, 53, 32]).map (fun r => r.event) = some ⟨5000, calc_oper.push⟩ ∧
    (get_input [53, 95, 51, 32]).map (fun r => r.event) = some ⟨-47000, calc_oper.push⟩ ∧
    (get_input [53, 95, 32]).map (fun r => r.event) = some ⟨-5000, calc_oper.push⟩ ∧
    (get_input [53, 51, 95, 32]).map (fun r => r.event) = some ⟨-53000, calc_oper.push⟩ ∧
    (get_input [53, 32]).map (fun r => r.event) = some ⟨5000, calc_oper.push⟩ ∧
    (get_input [53, 51, 32]).map (fun r => r.event) = some ⟨53000, calc_oper.push⟩ := by
  decide

/-! ## One event per line -/

theorem is_line_split (l : List Nat) (h : is_line l) :
    ∃ pre t, l = pre ++ [t] ∧ (∀ c ∈ pre, ¬ is_terminator c) ∧ is_terminator t := by
  unfold is_line at h
  cases hl : l.getLast? with
  | none => rw [hl] at h; exact h.elim
  | some t =>
    rw [hl] at h
    refine ⟨l.dropLast, t, ?_, h.2, h.1⟩
    exact (List.dropLast_append_getLast? t hl).symm

/-- The keys up to the first one that ends the event. -/
theorem split_at_first_terminator (keys : List Nat) (h : ∃ c ∈ keys, is_terminator c) :
    ∃ pre t post, keys = pre ++ t :: post ∧ (∀ c ∈ pre, ¬ is_terminator c) ∧
      is_terminator t := by
  induction keys with
  | nil =>
    obtain ⟨c, hc, -⟩ := h
    simp at hc
  | cons k ks ih =>
    by_cases hk : is_terminator k
    · exact ⟨[], k, ks, rfl, by simp, hk⟩
    · obtain ⟨c, hc, hct⟩ := h
      have hin : c ∈ ks := by
        rcases List.mem_cons.mp hc with e | e
        · subst e; exact (hk hct).elim
        · exact e
      obtain ⟨pre, t, post, e, hpre, ht⟩ := ih ⟨c, hin, hct⟩
      refine ⟨k :: pre, t, post, by rw [e]; rfl, ?_, ht⟩
      intro d hd
      rcases List.mem_cons.mp hd with e1 | e1
      · subst e1; exact hk
      · exact hpre d e1

/-- On a line `get_input` returns, and reads the whole line. -/
theorem get_input_line_some (pre : List Nat) (t : Nat) (hpre : ∀ c ∈ pre, ¬ is_terminator c)
    (ht : is_terminator t) : ∃ e out, get_input (pre ++ [t]) = some ⟨e, out, []⟩ := by
  obtain ⟨o, e⟩ := get_input_key_terminator (feed get_input_init pre) t ht
  unfold get_input
  rw [get_input_loop_append _ _ _ hpre]
  simp only [get_input_loop, e]
  exact ⟨_, _, rfl⟩

/-- Without a key that ends the event `get_input` does not return. -/
theorem get_input_waits (keys : List Nat) (h : ∀ c ∈ keys, ¬ is_terminator c) :
    get_input keys = Option.none := by
  have e : keys = keys ++ [] := by simp
  unfold get_input
  rw [e, get_input_loop_append _ _ _ h]
  rfl

/-- Successive calls of `get_input` on a concatenation of lines return the
events of the lines. -/
theorem get_inputs_lines (lines : List (List Nat)) (hl : ∀ l ∈ lines, is_line l) (fuel : Nat)
    (hf : lines.length ≤ fuel) :
    (get_inputs fuel lines.flatten).map some =
      lines.map (fun l => (get_input l).map (fun r => r.event)) := by
  induction lines generalizing fuel with
  | nil =>
    cases fuel with
    | zero => rfl
    | succ f => rfl
  | cons l ls ih =>
    cases fuel with
    | zero => simp at hf
    | succ f =>
      obtain ⟨pre, t, e, hpre, ht⟩ := is_line_split l (hl l (List.mem_cons_self _ _))
      obtain ⟨ev, out, hev⟩ := get_input_line_some pre t hpre ht
      have hcat : (l :: ls).flatten = pre ++ t :: ls.flatten := by
        rw [List.flatten_cons, e]
        simp
      have hget : get_input (pre ++ t :: ls.flatten) = some ⟨ev, out, ls.flatten⟩ := by
        rw [get_input_line pre t _ hpre ht, hev]
        rfl
      rw [hcat]
      simp only [get_inputs, hget, List.map_cons]
      rw [ih (fun x hx => hl x (List.mem_cons_of_mem _ hx)) f
        (by simp only [List.length_cons] at hf; omega), e, hev]
      rfl

/-- C20: on keys that contain a key that ends the event, `get_input` returns:
it reads the keys up to and including the first such key and leaves the keys
after it unread, whatever they are, and the event does not depend on them;
without such a key it does not return.  Successive calls on a concatenation
of lines return the events of the lines in order, each the event that its
line gives when decoded alone. -/
theorem get_input_consumes_one_line (keys : List Nat) (hk : ∃ c ∈ keys, is_terminator c)
    (lines : List (List Nat)) (hl : ∀ l ∈ lines, is_line l) (fuel : Nat)
    (hf : lines.length ≤ fuel) :
    (∃ pre t post r, keys = pre ++ t :: post ∧ (∀ c ∈ pre, ¬ is_terminator c) ∧
      is_terminator t ∧ get_input keys = some r ∧ r.rest = post ∧
      (∀ post1, get_input (pre ++ t :: post1) = some { r with rest := post1 }) ∧
      get_input pre = Option.none) ∧
    (get_inputs fuel lines.flatten).map some =
      lines.map (fun l => (get_input l).map (fun r => r.event)) := by
  refine ⟨?_, get_inputs_lines lines hl fuel hf⟩
  obtain ⟨pre, t, post, e, hpre, ht⟩ := split_at_first_terminator keys hk
  obtain ⟨ev, out, hev⟩ := get_input_line_some pre t hpre ht
  have hall : ∀ post1, get_input (pre ++ t :: post1) = some ⟨ev, out, post1⟩ := by
    intro post1
    rw [get_input_line pre t post1 hpre ht, hev]
    rfl
  exact ⟨pre, t, post, ⟨ev, out, post⟩, e, hpre, ht, by rw [e]; exact hall post, rfl, hall,
    get_input_waits pre hpre⟩

/-- C20 at the keys `12+3` newline, and at the lines `12+`, `3` newline, `;`. -/
theorem get_input_consumes_one_line_witness :
    (∃ pre t post r, [49, 50, 43, 51, 10] = pre ++ t :: post ∧
      (∀ c ∈ pre, ¬ is_terminator c) ∧ is_terminator t ∧
      get_input [49, 50, 43, 51, 10] = some r ∧ r.rest = post ∧
      (∀ post1, get_input (pre ++ t :: post1) = some { r with rest := post1 }) ∧
      get_input pre = Option.none) ∧
    (get_inputs 3 [[49, 50, 43], [51, 10], [59]].flatten).map some =
      [[49, 50, 43], [51, 10], [59]].map (fun l => (get_input l).map (fun r => r.event)) :=
  get_input_consumes_one_line [49, 50, 43, 51, 10] ⟨43, by decide, by decide⟩
    [[49, 50, 43], [51, 10], [59]] (by decide) 3 (by decide)

end BadRpn
